import Mathlib

/-!
Verification of the URL-summary cache service (src/main.py).

This file gives a shallow embedding, in Lean, of the parts of the program
the frozen claims are about:

* the URL codec: encode_url_safe / decode_url_safe (URL-safe base64 over the
  UTF-8 bytes of the URL, with deterministic padding restoration on decode);
* URL validation: is_valid_https_url / get_and_validate_url (modelling the
  scheme/netloc extraction performed by CPython urllib.parse.urlsplit);
* the recency scan: get_recent_summaries with its bounded min-heap
  (heapq.heappush / heapq.heappushpop keyed on the creation timestamp);
* the cache store: store_result / get_cached_result over an object-store
  backend, with the gzip compressor treated as an external collaborator and
  the JSON serialization (json.dumps with ensure_ascii, json.loads) embedded.

Machine-level collaborators that are pure glue (Flask, the Anthropic client,
HTML templating) are out of scope, as in the spec.  Python exceptions are
modelled with Option: a function that can raise returns none on the raising
inputs; where the source catches the exception the caller branches on none.
-/

namespace SummarizeApp

/-! ## UTF-8 (model of Python str.encode / bytes.decode, strict mode) -/

/-- UTF-8 encoding of a single unicode scalar value, as byte values.
Models CPython's encoder for one character of a str (Lean Char is exactly a
unicode scalar value, which matches Python strings without lone surrogates). -/
def utf8EncodeChar (c : Char) : List Nat :=
  if c.toNat < 0x80 then [c.toNat]
  else if c.toNat < 0x800 then [0xC0 + c.toNat / 64, 0x80 + c.toNat % 64]
  else if c.toNat < 0x10000 then
    [0xE0 + c.toNat / 4096, 0x80 + c.toNat / 64 % 64, 0x80 + c.toNat % 64]
  else
    [0xF0 + c.toNat / 262144, 0x80 + c.toNat / 4096 % 64, 0x80 + c.toNat / 64 % 64,
     0x80 + c.toNat % 64]

/-- UTF-8 encoding of a character sequence: model of Python str.encode(). -/
def utf8Encode (cs : List Char) : List Nat :=
  (cs.map utf8EncodeChar).flatten

/-- One code point of a strict UTF-8 decode: the decoded character and the
remaining bytes, or none at the end of input or on a malformed head sequence
(truncation, bad continuation byte, overlong encoding, surrogate, value
above 0x10FFFF), exactly as CPython's strict decoder classifies them. -/
def utf8DecodeChar1 (bs : List Nat) : Option (Char × List Nat) :=
  match bs with
  | [] => none
  | b :: rest =>
    if b < 0x80 then some (Char.ofNat b, rest)
    else if b < 0xC2 then none
    else if b < 0xE0 then
      match rest with
      | b2 :: rest2 =>
        if 0x80 ≤ b2 ∧ b2 < 0xC0 then
          some (Char.ofNat ((b - 0xC0) * 64 + (b2 - 0x80)), rest2)
        else none
      | [] => none
    else if b < 0xF0 then
      match rest with
      | b2 :: b3 :: rest3 =>
        if ((if b = 0xE0 then (0xA0:Nat) else 0x80) ≤ b2 ∧
              b2 < (if b = 0xED then (0xA0:Nat) else 0xC0)) ∧
            (0x80 ≤ b3 ∧ b3 < 0xC0) then
          some (Char.ofNat (((b - 0xE0) * 64 + (b2 - 0x80)) * 64 + (b3 - 0x80)), rest3)
        else none
      | _ => none
    else if b < 0xF5 then
      match rest with
      | b2 :: b3 :: b4 :: rest4 =>
        if ((if b = 0xF0 then (0x90:Nat) else 0x80) ≤ b2 ∧
              b2 < (if b = 0xF4 then (0x90:Nat) else 0xC0)) ∧
            (0x80 ≤ b3 ∧ b3 < 0xC0) ∧ (0x80 ≤ b4 ∧ b4 < 0xC0) then
          some (Char.ofNat ((((b - 0xF0) * 64 + (b2 - 0x80)) * 64 + (b3 - 0x80)) * 64
            + (b4 - 0x80)), rest4)
        else none
      | _ => none
    else none

/-- The decode loop, driven by a fuel bound; each character consumes at
least one byte, so fuel equal to the byte count (as utf8Decode passes) never
runs out. -/
def utf8DecodeGo : Nat → List Nat → Option (List Char)
  | _, [] => some []
  | 0, _ :: _ => none
  | Nat.succ f, b :: rest =>
    match utf8DecodeChar1 (b :: rest) with
    | none => none
    | some p => (utf8DecodeGo f p.2).map (fun cs => p.1 :: cs)

/-- Strict UTF-8 decoding: model of Python bytes.decode() with the default
strict error handler; none models the UnicodeDecodeError. -/
def utf8Decode (bs : List Nat) : Option (List Char) :=
  utf8DecodeGo bs.length bs

/-! ## URL-safe base64 (model of base64.urlsafe_b64encode / urlsafe_b64decode) -/

/-- Character number n of the URL-safe base64 alphabet (n < 64). -/
def b64Char (n : Nat) : Char :=
  if n < 26 then Char.ofNat (65 + n)
  else if n < 52 then Char.ofNat (97 + (n - 26))
  else if n < 62 then Char.ofNat (48 + (n - 52))
  else if n = 62 then '-'
  else '_'

/-- base64.urlsafe_b64encode over a byte list, producing the padded character
sequence ("Keep padding", as the source comments). -/
def b64EncodeBytes : List Nat → List Char
  | b1 :: b2 :: b3 :: rest =>
    b64Char (b1 / 4) :: b64Char (b1 % 4 * 16 + b2 / 16) ::
      b64Char (b2 % 16 * 4 + b3 / 64) :: b64Char (b3 % 64) :: b64EncodeBytes rest
  | [b1, b2] => [b64Char (b1 / 4), b64Char (b1 % 4 * 16 + b2 / 16), b64Char (b2 % 16 * 4), '=']
  | [b1] => [b64Char (b1 / 4), b64Char (b1 % 4 * 16), '=', '=']
  | [] => []

/-- Value of a base64 data character.  urlsafe_b64decode first translates
'-' to '+' and '_' to '/', then decodes with the standard alphabet, so both
alphabets are accepted here.  none for every non-alphabet character, which
binascii.a2b_base64 skips in non-strict mode. -/
def b64CharVal (c : Char) : Option Nat :=
  let n := c.toNat
  if 65 ≤ n ∧ n ≤ 90 then some (n - 65)
  else if 97 ≤ n ∧ n ≤ 122 then some (n - 71)
  else if 48 ≤ n ∧ n ≤ 57 then some (n + 4)
  else if c = '+' ∨ c = '-' then some 62
  else if c = '/' ∨ c = '_' then some 63
  else none

/-- Bytes emitted when a quad of 2 or 3 data characters is terminated by
padding (binascii.c: leftchar >> 4 for two characters, leftchar >> 2 split
into two bytes for three). -/
def emitPartial : List Nat → List Nat
  | [v1, v2] => [(v1 * 64 + v2) / 16]
  | [v1, v2, v3] => [((v1 * 64 + v2) * 64 + v3) / 4 / 256, ((v1 * 64 + v2) * 64 + v3) / 4 % 256]
  | _ => []

/-- The three bytes of a full quad of base64 data characters: the first
three values are the pending quad, the fourth the arriving character. -/
def emitFull (quad : List Nat) (v4 : Nat) : List Nat :=
  match quad with
  | [v1, v2, v3] => [(((v1 * 64 + v2) * 64 + v3) * 64 + v4) / 65536,
      (((v1 * 64 + v2) * 64 + v3) * 64 + v4) / 256 % 256,
      (((v1 * 64 + v2) * 64 + v3) * 64 + v4) % 256]
  | _ => []

/-- Model of binascii.a2b_base64 in non-strict mode (the mode used by
base64.b64decode with validate=False): non-alphabet characters are skipped,
a quad terminated by enough padding emits its partial bytes and ends the
decode, and a trailing incomplete quad without padding is an error (none).
State: the pending quad of data-character values and the running pad count. -/
def a2b : List Char → List Nat → Nat → Option (List Nat)
  | [], quad, _ => if quad.length = 0 then some [] else none
  | c :: rest, quad, pads =>
    if c = '=' then
      if 2 ≤ quad.length then
        if 4 ≤ quad.length + (pads + 1) then some (emitPartial quad)
        else a2b rest quad (pads + 1)
      else a2b rest quad pads
    else
      match b64CharVal c with
      | none => a2b rest quad pads
      | some v =>
        if quad.length = 3 then (a2b rest [] 0).map (fun out => emitFull quad v ++ out)
        else a2b rest (quad ++ [v]) 0

/-! ## The URL codec (src/main.py: encode_url_safe / decode_url_safe) -/

/-- encode_url_safe: "Encode URL to base64 for use in paths".
base64.urlsafe_b64encode(url.encode()) decoded back to a str; padding kept. -/
def encode_url_safe (url : String) : String :=
  String.mk (b64EncodeBytes (utf8Encode url.data))

/-- decode_url_safe: "Decode base64 URL back to original".  Re-adds padding
deterministically from the length mod 4, then urlsafe_b64decode and UTF-8
decode.  Any failure (non-ASCII input to b64decode, bad base64, bad UTF-8)
raises ValueError in the source; modelled as none. -/
def decode_url_safe (encoded : String) : Option String :=
  let cs := encoded.data
  let r := cs.length % 4
  let padded := if r = 0 then cs else cs ++ List.replicate (4 - r) '='
  if padded.all (fun c => decide (c.toNat < 128)) then
    match a2b padded [] 0 with
    | none => none
    | some bytes =>
      match utf8Decode bytes with
      | none => none
      | some chars => some (String.mk chars)
  else none

/-- get_blob_name: "Generate blob name from URL using base64" (appends .gz). -/
def get_blob_name (url : String) : String :=
  encode_url_safe url ++ ".gz"

/-- url_from_blob_name: "Extract URL from blob name" (strips the last three
characters, the .gz suffix, before decoding; Python slice [:-3]). -/
def url_from_blob_name (blob_name : String) : Option String :=
  decode_url_safe (String.mk (blob_name.data.take (blob_name.data.length - 3)))

/-- Removes every trailing '=' of a string (used to state claim C10 about
padding-insensitivity of the decoder). -/
def stripPadding (s : String) : String :=
  String.mk ((s.data.reverse.dropWhile (fun c => c = '=')).reverse)

/-! ## URL validation (src/main.py: is_valid_https_url / get_and_validate_url)

The source calls urllib.parse.urlparse and reads only .scheme and .netloc.
The model below follows CPython urlsplit: strip leading C0-control/space
characters, remove every tab/CR/LF, split off a scheme when the text before
the first ':' is a non-empty run of scheme characters starting with an ASCII
letter, then take the netloc as the run after a leading "//" up to the first
of '/', '?', '#'.  urlsplit raises ValueError on mismatched brackets in the
netloc and on invalid bracketed (IPv6) hosts; is_valid_https_url catches any
exception and returns False, so here every bracketed netloc is conservatively
mapped to false (the IPv6 validation of _check_bracketed_host is not
modelled; no claim concerns bracketed hosts).  The NFKC-based _checknetloc
rejection of pathological non-ASCII netlocs is likewise not modelled. -/

/-- WHATWG C0-control-or-space predicate used by urlsplit's lstrip. -/
def c0ControlOrSpace (c : Char) : Bool :=
  c.toNat ≤ 0x20

/-- The unsafe bytes (tab, CR, LF) removed anywhere in the URL by urlsplit. -/
def removeUnsafe (cs : List Char) : List Char :=
  cs.filter (fun c => !(c = '\t' || c = '\r' || c = '\n'))

/-- Characters allowed in a URL scheme (ASCII letters, digits, and +-.). -/
def isSchemeChar (c : Char) : Bool :=
  c.isAlphanum || c = '+' || c = '-' || c = '.'

/-- Split a character list at its first ':' (Python url.find(yields the text
before and after the colon), or none when there is no colon. -/
def splitAtColon : List Char → Option (List Char × List Char)
  | [] => none
  | c :: rest =>
    if c = ':' then some ([], rest)
    else (splitAtColon rest).map (fun p => (c :: p.1, p.2))

/-- True for the characters that end the netloc in _splitnetloc. -/
def netlocDelim (c : Char) : Bool :=
  c = '/' || c = '?' || c = '#'

/-- Scheme (lowercased) and netloc of a URL, per CPython urlsplit. -/
def urlSchemeNetloc (url : String) : List Char × List Char :=
  let cs := removeUnsafe (url.data.dropWhile c0ControlOrSpace)
  let sr : List Char × List Char :=
    match splitAtColon cs with
    | some (before, after) =>
      if before ≠ [] ∧ (before.headD ' ').isAlpha ∧ before.all isSchemeChar then
        (before.map Char.toLower, after)
      else ([], cs)
    | none => ([], cs)
  match sr.2 with
  | c1 :: c2 :: rest2 =>
    if c1 = '/' ∧ c2 = '/' then (sr.1, rest2.takeWhile (fun c => !netlocDelim c))
    else (sr.1, [])
  | _ => (sr.1, [])

/-- is_valid_https_url: parsed.scheme == "https" and bool(parsed.netloc),
with any urlparse exception mapped to False. -/
def is_valid_https_url (url : String) : Bool :=
  let sn := urlSchemeNetloc url
  if sn.2.contains '[' || sn.2.contains ']' then false
  else sn.1 == "https".data && !(sn.2 == [])

/-- Python str.startswith (a character-prefix test). -/
def pyStartsWith (s pre : String) : Bool :=
  pre.data.isPrefixOf s.data

/-- Python str.endswith (a character-suffix test). -/
def pyEndsWith (s post : String) : Bool :=
  post.data.isSuffixOf s.data

/-- get_and_validate_url: prepend "https://" when the candidate does not
already start with it, then accept the (possibly prepended) string exactly
when is_valid_https_url holds; None models the rejected candidate. -/
def get_and_validate_url (url : String) : Option String :=
  let url2 := if pyStartsWith url "https://" then url else "https://" ++ url
  if is_valid_https_url url2 then some url2 else none

/-! ## The recency scan (src/main.py: get_recent_summaries)

The backend listing is an input here: list_blobs_by_page is a paginated
iterator over backend blobs, so the scan consumes a stream of blobs; an
enumeration failure is the stream raising after yielding a prefix.  The model
therefore takes the list of successfully yielded blobs plus a flag saying
whether the enumeration then raises (the position of the failure does not
matter beyond which blobs were yielded, because the handler discards
everything).  Python datetimes are modelled as epoch seconds (Nat); the
comparison SummaryEntry.__lt__ compares timestamps. -/

/-- A backend blob as the scan sees it: blob.name and blob.time_created are
both Optional in the google-cloud-storage API. -/
structure Blob where
  name : Option String
  time_created : Option Nat
deriving DecidableEq

/-- SummaryEntry (dataclass): url plus creation timestamp; __lt__ compares
timestamps, which is the heap order. -/
structure SummaryEntry where
  url : String
  timestamp : Nat
deriving DecidableEq

/-- The heapq heap is modelled as a list kept sorted by ascending timestamp:
a sorted list satisfies the heap invariant, its head is heap[0], the minimum.
With pairwise-distinct timestamps every heapq implementation holds the same
multiset at every step, so claims (which assume or do not depend on
distinctness) are unaffected by which valid heap arrangement is modelled;
ties are explicitly unspecified in the spec.  heappush inserts keeping the
order. -/
def heapInsert (e : SummaryEntry) : List SummaryEntry → List SummaryEntry
  | [] => [e]
  | x :: xs => if e.timestamp < x.timestamp then e :: x :: xs else x :: heapInsert e xs

/-- heapq.heappush on the sorted-list heap model. -/
def heapPush (heap : List SummaryEntry) (e : SummaryEntry) : List SummaryEntry :=
  heapInsert e heap

/-- heapq.heappushpop: on a non-empty heap whose minimum heap[0] is smaller
than the new item, pop that minimum and push the item; otherwise leave the
heap unchanged (the pushed item is immediately popped). -/
def heapPushPop (heap : List SummaryEntry) (e : SummaryEntry) : List SummaryEntry :=
  match heap with
  | [] => []
  | m :: rest => if m.timestamp < e.timestamp then heapInsert e rest else m :: rest

/-- One loop iteration's heap update in get_recent_summaries: heappush while
the heap has fewer than max_entries elements, heappushpop once it is full. -/
def scanStep (max_entries : Nat) (heap : List SummaryEntry) (e : SummaryEntry) :
    List SummaryEntry :=
  if heap.length < max_entries then heapPush heap e else heapPushPop heap e

/-- The scan loop of get_recent_summaries: skip blobs with a missing name, a
name not ending in ".gz", or a missing creation time; decode the rest.  A
decode failure raises ValueError out of the loop (none); otherwise the final
heap is returned. -/
def scanBlobs (max_entries : Nat) (heap : List SummaryEntry) :
    List Blob → Option (List SummaryEntry)
  | [] => some heap
  | b :: rest =>
    match b.name with
    | none => scanBlobs max_entries heap rest
    | some nm =>
      if pyEndsWith nm ".gz" then
        match b.time_created with
        | none => scanBlobs max_entries heap rest
        | some t =>
          match url_from_blob_name nm with
          | none => none
          | some u => scanBlobs max_entries (scanStep max_entries heap ⟨u, t⟩) rest
      else scanBlobs max_entries heap rest

/-- Insert into a list sorted by descending timestamp. -/
def insertDesc (e : SummaryEntry) : List SummaryEntry → List SummaryEntry
  | [] => [e]
  | x :: xs => if x.timestamp < e.timestamp then e :: x :: xs else x :: insertDesc e xs

/-- Model of sorted(heap, key=timestamp, reverse=True): insertion sort by
descending timestamp (ties are unspecified by the spec, section 4.3). -/
def insertionSortDesc : List SummaryEntry → List SummaryEntry
  | [] => []
  | x :: xs => insertDesc x (insertionSortDesc xs)

/-- Two-digit zero-padded decimal rendering. -/
def pad2 (n : Nat) : String :=
  if n < 10 then "0" ++ toString n else toString n

/-- Proleptic-Gregorian civil date from a day count since 1970-01-01
(the standard days-to-civil algorithm, valid for post-epoch instants). -/
def civilFromDays (z0 : Nat) : Nat × Nat × Nat :=
  let z := z0 + 719468
  let era := z / 146097
  let doe := z % 146097
  let yoe := (doe - doe / 1460 + doe / 36524 - doe / 146096) / 365
  let y := yoe + era * 400
  let doy := doe - (365 * yoe + yoe / 4 - yoe / 100)
  let mp := (5 * doy + 2) / 153
  let d := doy - (153 * mp + 2) / 5 + 1
  let m := if mp < 10 then mp + 3 else mp - 9
  (if m ≤ 2 then y + 1 else y, m, d)

/-- strftime("%Y-%m-%d %H:%M UTC") on an epoch-seconds timestamp. -/
def formatTimestamp (t : Nat) : String :=
  let dmy := civilFromDays (t / 86400)
  let secs := t % 86400
  toString dmy.1 ++ "-" ++ pad2 dmy.2.1 ++ "-" ++ pad2 dmy.2.2 ++ " " ++
    pad2 (secs / 3600) ++ ":" ++ pad2 (secs % 3600 / 60) ++ " UTC"

/-- get_recent_summaries: scan the (paginated) listing with the bounded heap,
then sort the surviving entries by descending timestamp and render them.  Any
exception — a decode failure inside the loop, or the enumeration raising
after yielding the listed blobs — is caught by the surrounding handler, which
logs and returns the empty list. -/
def get_recent_summaries (max_entries : Nat) (listing : List Blob) (enumFails : Bool) :
    List (String × String) :=
  match scanBlobs max_entries [] listing with
  | none => []
  | some heap =>
    if enumFails then []
    else (insertionSortDesc heap).map (fun e => (e.url, formatTimestamp e.timestamp))

/-- The qualifying entries of a listing, with their decoded URLs: blobs with
a name, the ".gz" suffix and a creation time, whose key decodes.  Used to
state the top-K claims. -/
def listingEntries (listing : List Blob) : List SummaryEntry :=
  listing.filterMap fun b =>
    match b.name, b.time_created with
    | some nm, some t =>
      if pyEndsWith nm ".gz" then (url_from_blob_name nm).map (fun u => ⟨u, t⟩) else none
    | _, _ => none

/-- Decidable qualification test for one blob: present name ending ".gz",
present creation time, decodable key. -/
def qualifiesOk (b : Blob) : Bool :=
  match b.name, b.time_created with
  | some nm, some _ => pyEndsWith nm ".gz" && (url_from_blob_name nm).isSome
  | _, _ => false

/-! ## JSON (model of json.dumps with its defaults, and json.loads)

The stored artifact is json.dumps(asdict(CachedResult(title, summary))),
i.e. an object with the two string members title and summary, serialized
with ensure_ascii=True and the default separators, then gzip-compressed.
Reading decompresses, json.loads the bytes, and rebuilds the dataclass with
CachedResult(**data). -/

/-- CachedResult (dataclass): the cached artifact. -/
structure CachedResult where
  title : String
  summary : String
deriving DecidableEq

/-- A JSON value.  Numbers keep their source lexeme: no claim inspects
numeric values, only whether parsing succeeds. -/
inductive JVal where
  | jnull : JVal
  | jbool : Bool → JVal
  | jnum : String → JVal
  | jstr : String → JVal
  | jarr : List JVal → JVal
  | jobj : List (String × JVal) → JVal

/-- The brace characters, named so they never appear as literals. -/
def lbrace : Char := Char.ofNat 123

/-- Closing brace character. -/
def rbrace : Char := Char.ofNat 125

/-- Lowercase hex digit character for a value below 16. -/
def hexDigitChar (n : Nat) : Char :=
  if n < 10 then Char.ofNat (48 + n) else Char.ofNat (87 + n)

/-- Four lowercase hex digits of a value below 0x10000 (the \uXXXX payload
emitted by the ensure_ascii encoder). -/
def toHex4 (n : Nat) : List Char :=
  [hexDigitChar (n / 4096 % 16), hexDigitChar (n / 256 % 16),
   hexDigitChar (n / 16 % 16), hexDigitChar (n % 16)]

/-- Escape of one character inside a JSON string literal, following the
CPython ensure_ascii encoder: the two-character escapes for quote, backslash
and the five control shorthands; printable ASCII verbatim; everything else
as \uXXXX, with surrogate pairs for astral characters. -/
def escapeChar (c : Char) : List Char :=
  let n := c.toNat
  if c = '"' then ['\\', '"']
  else if c = '\\' then ['\\', '\\']
  else if c = '\n' then ['\\', 'n']
  else if c = '\r' then ['\\', 'r']
  else if c = '\t' then ['\\', 't']
  else if n = 8 then ['\\', 'b']
  else if n = 12 then ['\\', 'f']
  else if 0x20 ≤ n ∧ n < 0x7F then [c]
  else if n < 0x10000 then '\\' :: 'u' :: toHex4 n
  else ('\\' :: 'u' :: toHex4 (0xD800 + (n - 0x10000) / 1024)) ++
       ('\\' :: 'u' :: toHex4 (0xDC00 + (n - 0x10000) % 1024))

/-- A JSON string literal for s: quote, escaped characters, quote. -/
def encodeJsonString (s : String) : List Char :=
  '"' :: (s.data.map escapeChar).flatten ++ ['"']

/-- json.dumps(asdict(r)) for a CachedResult: the keys come out in dataclass
field order, with the default (", ", ": ") separators. -/
def jsonDumpsCached (r : CachedResult) : List Char :=
  lbrace :: encodeJsonString "title" ++ ':' :: ' ' :: encodeJsonString r.title ++
    ',' :: ' ' :: encodeJsonString "summary" ++ ':' :: ' ' :: encodeJsonString r.summary ++
    [rbrace]

/-- JSON whitespace (the characters skipped between tokens by json.loads). -/
def jsonWs (c : Char) : Bool :=
  c = ' ' || c = '\t' || c = '\n' || c = '\r'

/-- Skip JSON whitespace. -/
def skipWs (cs : List Char) : List Char :=
  cs.dropWhile jsonWs

/-- Hex digit value, both cases accepted (as in the \uXXXX scanner). -/
def hexVal (c : Char) : Option Nat :=
  let n := c.toNat
  if 48 ≤ n ∧ n ≤ 57 then some (n - 48)
  else if 97 ≤ n ∧ n ≤ 102 then some (n - 87)
  else if 65 ≤ n ∧ n ≤ 70 then some (n - 55)
  else none

/-- The single-character escapes accepted after a backslash in a JSON string. -/
def escCharVal (e : Char) : Option Char :=
  if e = '"' then some '"'
  else if e = '\\' then some '\\'
  else if e = '/' then some '/'
  else if e = 'b' then some (Char.ofNat 8)
  else if e = 'f' then some (Char.ofNat 12)
  else if e = 'n' then some '\n'
  else if e = 'r' then some '\r'
  else if e = 't' then some '\t'
  else none

/-- Four hex digits off the head of the input (the \uXXXX payload). -/
def readHex4 (cs : List Char) : Option (Nat × List Char) :=
  match cs with
  | a :: b :: c :: d :: rest =>
    match hexVal a, hexVal b, hexVal c, hexVal d with
    | some va, some vb, some vc, some vd => some (((va * 16 + vb) * 16 + vc) * 16 + vd, rest)
    | _, _, _, _ => none
  | _ => none

/-- A literal backslash-u pair off the head of the input. -/
def readBackslashU (cs : List Char) : Option (List Char) :=
  match cs with
  | q1 :: q2 :: rest => if q1 = '\\' ∧ q2 = 'u' then some rest else none
  | _ => none

/-- Decoding of a \uXXXX escape payload (after the backslash and the u):
four hex digits, with a high surrogate demanding an immediately following
low-surrogate escape which combines into one astral character. -/
def parseUEscape (cs : List Char) : Option (Char × List Char) :=
  (readHex4 cs).bind (fun p =>
    if 0xD800 ≤ p.1 ∧ p.1 < 0xDC00 then
      (readBackslashU p.2).bind (fun rest2b =>
        (readHex4 rest2b).bind (fun p2 =>
          if 0xDC00 ≤ p2.1 ∧ p2.1 < 0xE000 then
            some (Char.ofNat (0x10000 + (p.1 - 0xD800) * 1024 + (p2.1 - 0xDC00)), p2.2)
          else none))
    else if 0xDC00 ≤ p.1 ∧ p.1 < 0xE000 then none
    else some (Char.ofNat p.1, p.2))

/-- One step of scanning a JSON string body: either the closing quote is
consumed (some (none, rest)), or one string character is consumed
(some (some ch, rest)), unescaping as the strict json.loads scanner does:
raw control characters below 0x20 are rejected and \uXXXX escapes are
decoded.  A lone surrogate escape would produce a lone-surrogate Python
str, which a Lean Char cannot carry; it is modelled as a failure (no claim
concerns lone surrogates, and round trips of the encoder never produce
them). -/
def parseStringStep (cs : List Char) : Option (Option Char × List Char) :=
  match cs with
  | [] => none
  | c :: rest =>
    if c = '"' then some (none, rest)
    else if c = '\\' then
      match rest with
      | [] => none
      | e :: rest1 =>
        if e = 'u' then (parseUEscape rest1).map (fun p => (some p.1, p.2))
        else
          match escCharVal e with
          | some ec => some (some ec, rest1)
          | none => none
    else if c.toNat < 0x20 then none
    else some (some c, rest)

/-- The string-body scan loop, with a fuel bound; every step consumes at
least one character, so the fuel parseStringBody passes never runs out. -/
def parseStringGo : Nat → List Char → Option (List Char × List Char)
  | 0, _ => none
  | Nat.succ f, cs =>
    match parseStringStep cs with
    | none => none
    | some (none, rest) => some ([], rest)
    | some (some ch, rest) => (parseStringGo f rest).map (fun p => (ch :: p.1, p.2))

/-- Scan a JSON string body (after the opening quote) up to the closing
quote: the unescaped characters and the remaining input. -/
def parseStringBody (cs : List Char) : Option (List Char × List Char) :=
  parseStringGo (cs.length + 1) cs

/-- Digit test for number scanning. -/
def isDigitChar (c : Char) : Bool :=
  48 ≤ c.toNat && c.toNat ≤ 57

/-- Scan a JSON number at the head of the input, per the json grammar
-?(0|[1-9][0-9]*)(.[0-9]+)?([eE][+-]?[0-9]+)?; the lexeme is kept raw. -/
def parseNumberBody (cs : List Char) : Option (List Char × List Char) :=
  let afterSign := if cs.headD ' ' = '-' then cs.tail else cs
  match afterSign with
  | [] => none
  | d :: rest =>
    if ¬ isDigitChar d then none
    else
      let intRest := if d = '0' then rest else rest.dropWhile isDigitChar
      let intLen := afterSign.length - intRest.length
      let fr :=
        match intRest with
        | '.' :: f :: fRest =>
          if isDigitChar f then some (2 + (fRest.takeWhile isDigitChar).length) else none
        | _ => some 0
      match fr with
      | none => none
      | some fLen =>
        let expStart := intRest.drop fLen
        let er :=
          match expStart with
          | e :: eRest =>
            if e = 'e' ∨ e = 'E' then
              let digs := if eRest.headD ' ' = '+' ∨ eRest.headD ' ' = '-'
                          then eRest.tail else eRest
              match digs with
              | g :: gRest =>
                if isDigitChar g then
                  some (1 + (eRest.length - digs.length) + 1 +
                    (gRest.takeWhile isDigitChar).length)
                else some 0
              | [] => some 0
            else some 0
          | [] => some 0
        match er with
        | none => none
        | some eLen =>
          let total := (if cs.headD ' ' = '-' then 1 else 0) + intLen + fLen + eLen
          some (cs.take total, cs.drop total)

/-- A non-container JSON value at the head of the input: the keyword
literals (with the NaN/Infinity extensions json accepts by default), or a
number. -/
def parseAtom (cs : List Char) : Option (JVal × List Char) :=
  match cs with
  | 't' :: 'r' :: 'u' :: 'e' :: r => some (JVal.jbool true, r)
  | 'f' :: 'a' :: 'l' :: 's' :: 'e' :: r => some (JVal.jbool false, r)
  | 'n' :: 'u' :: 'l' :: 'l' :: r => some (JVal.jnull, r)
  | 'N' :: 'a' :: 'N' :: r => some (JVal.jnum "NaN", r)
  | 'I' :: 'n' :: 'f' :: 'i' :: 'n' :: 'i' :: 't' :: 'y' :: r =>
    some (JVal.jnum "Infinity", r)
  | '-' :: 'I' :: 'n' :: 'f' :: 'i' :: 'n' :: 'i' :: 't' :: 'y' :: r =>
    some (JVal.jnum "-Infinity", r)
  | cs2 => (parseNumberBody cs2).map (fun p => (JVal.jnum (String.mk p.1), p.2))

mutual

/-- One JSON value at the head of the input (leading whitespace skipped),
per json.loads: string, object, array, or an atom (keyword literal or
number).  The fuel bounds the nesting depth; callers pass more fuel than
the input length, so it never runs out on real input. -/
def parseValue : Nat → List Char → Option (JVal × List Char)
  | 0, _ => none
  | Nat.succ f, cs =>
    match skipWs cs with
    | [] => none
    | c :: rest =>
      if c = '"' then (parseStringBody rest).map (fun p => (JVal.jstr (String.mk p.1), p.2))
      else if c = lbrace then
        match skipWs rest with
        | d :: rest2 =>
          if d = rbrace then some (JVal.jobj [], rest2)
          else (parseMembers f (d :: rest2)).map (fun p => (JVal.jobj p.1, p.2))
        | [] => none
      else if c = '[' then
        match skipWs rest with
        | d :: rest2 =>
          if d = ']' then some (JVal.jarr [], rest2)
          else (parseElems f (d :: rest2)).map (fun p => (JVal.jarr p.1, p.2))
        | [] => none
      else parseAtom (c :: rest)

/-- The members of a JSON object, positioned at the (non-'}') first key. -/
def parseMembers : Nat → List Char → Option (List (String × JVal) × List Char)
  | 0, _ => none
  | Nat.succ f, cs =>
    match cs with
    | c :: rest =>
      if c = '"' then
        match parseStringBody rest with
        | none => none
        | some (key, rest2) =>
          match skipWs rest2 with
          | d :: rest3 =>
            if d = ':' then
              match parseValue f rest3 with
              | none => none
              | some (v, rest4) =>
                match skipWs rest4 with
                | e :: rest5 =>
                  if e = ',' then
                    (parseMembers f (skipWs rest5)).map
                      (fun p => ((String.mk key, v) :: p.1, p.2))
                  else if e = rbrace then some ([(String.mk key, v)], rest5)
                  else none
                | [] => none
            else none
          | [] => none
      else none
    | [] => none

/-- The elements of a JSON array, positioned at the (non-']') first value. -/
def parseElems : Nat → List Char → Option (List JVal × List Char)
  | 0, _ => none
  | Nat.succ f, cs =>
    match parseValue f cs with
    | none => none
    | some (v, rest) =>
      match skipWs rest with
      | d :: rest2 =>
        if d = ',' then (parseElems f rest2).map (fun p => (v :: p.1, p.2))
        else if d = ']' then some ([v], rest2)
        else none
      | [] => none

end

/-- json.loads on a character sequence: one value, then only whitespace may
remain ("Extra data" otherwise). -/
def jsonLoads (cs : List Char) : Option JVal :=
  match parseValue (cs.length + 1) cs with
  | none => none
  | some (v, rest) => if skipWs rest = [] then some v else none

/-- Last value stored under a key in an association list: a JSON object with
duplicate keys becomes a Python dict keeping the last occurrence. -/
def lookupLastStr (k : String) : List (String × JVal) → Option JVal
  | [] => none
  | kv :: rest =>
    match lookupLastStr k rest with
    | some v => some v
    | none => if kv.1 = k then some kv.2 else none

/-- CachedResult(**data): the parsed JSON value must be an object whose keys
are exactly title and summary (any extra or missing keyword raises TypeError,
caught by the caller).  The model additionally requires the two values to be
strings, matching the declared dataclass fields; Python's dataclass would
accept non-string values unchecked, a path no claim exercises. -/
def kwargsCachedResult : JVal → Option CachedResult
  | JVal.jobj kvs =>
    if kvs.all (fun kv => kv.1 == "title" || kv.1 == "summary") then
      match lookupLastStr "title" kvs, lookupLastStr "summary" kvs with
      | some (JVal.jstr t), some (JVal.jstr s) => some ⟨t, s⟩
      | _, _ => none
    else none
  | _ => none

/-! ## The cache store (src/main.py: store_result / get_cached_result)

The object-store backend is a name-to-bytes map (newest upload first; lookup
takes the first hit, giving last-writer-wins).  gzip.compress/gzip.decompress
is an external collaborator (spec section 6) and is passed in as a function
pair; decompression can fail (none models the raised error on corrupt
input). -/

/-- The object-store backend state. -/
structure Store where
  blobs : List (String × List Nat)

/-- getObject/objectExists: the current bytes under a name, if any. -/
def Store.lookup (s : Store) (name : String) : Option (List Nat) :=
  (s.blobs.find? (fun kv => kv.1 == name)).map (fun kv => kv.2)

/-- putObject: unconditional overwrite (last-writer-wins). -/
def Store.upload (s : Store) (name : String) (data : List Nat) : Store :=
  ⟨(name, data) :: s.blobs⟩

/-- store_result: serialize the CachedResult to JSON, UTF-8 encode, compress
with the collaborator, and upload under get_blob_name(url). -/
def store_result (compress : List Nat → List Nat) (s : Store)
    (url title summary : String) : Store :=
  s.upload (get_blob_name url) (compress (utf8Encode (jsonDumpsCached ⟨title, summary⟩)))

/-- The deserialization pipeline of get_cached_result: decompress, UTF-8
decode, json.loads, CachedResult(**data); none at any stage models the
exception the source catches. -/
def deserializeResult (decompress : List Nat → Option (List Nat)) (data : List Nat) :
    Option CachedResult :=
  match decompress data with
  | none => none
  | some raw =>
    match utf8Decode raw with
    | none => none
    | some chars =>
      match jsonLoads chars with
      | none => none
      | some v => kwargsCachedResult v

/-- get_cached_result: existence probe, then download and deserialize; None
both on a clean miss (blob.exists() false) and whenever anything raises —
the source's except clause logs and returns None. -/
def get_cached_result (decompress : List Nat → Option (List Nat)) (s : Store)
    (url : String) : Option CachedResult :=
  match s.lookup (get_blob_name url) with
  | none => none
  | some data => deserializeResult decompress data

/-- The identity compressor: a concrete instance of the gzip collaborator
interface used by witnesses and counterexamples. -/
def idCompress : List Nat → List Nat := fun bs => bs

/-- The identity decompressor (total): the inverse of idCompress. -/
def idDecompress : List Nat → Option (List Nat) := fun bs => some bs

/-! ## Concrete demonstration data (used by witnesses and counterexamples) -/

/-- A backend blob for URL u created at epoch second t, named as store_result
names it. -/
def demoBlob (u : String) (t : Nat) : Blob :=
  ⟨some (get_blob_name u), some t⟩

/-- Ten qualifying demo blobs with pairwise distinct timestamps, listed in a
scrambled order. -/
def demoListing10 : List Blob :=
  [demoBlob "https://a0.com" 103, demoBlob "https://a1.com" 101,
   demoBlob "https://a2.com" 109, demoBlob "https://a3.com" 100,
   demoBlob "https://a4.com" 105, demoBlob "https://a5.com" 102,
   demoBlob "https://a6.com" 108, demoBlob "https://a7.com" 104,
   demoBlob "https://a8.com" 106, demoBlob "https://a9.com" 107]

/-- Five qualifying demo blobs with pairwise distinct timestamps. -/
def demoListing5 : List Blob :=
  [demoBlob "https://b0.com" 14, demoBlob "https://b1.com" 11,
   demoBlob "https://b2.com" 15, demoBlob "https://b3.com" 12,
   demoBlob "https://b4.com" 13]

/-- A blob whose key ends in ".gz" but whose stem decodes to the byte 0xFF,
which is not valid UTF-8, so url_from_blob_name raises (none). -/
def badBlob : Blob :=
  ⟨some "_w==.gz", some 50⟩

/-- A store holding, under the blob name of one URL, a payload that is not
valid JSON once decompressed. -/
def corruptStore : Store :=
  ⟨[(get_blob_name "https://example.com", utf8Encode "notjson".data)]⟩

/-- The empty store: nothing was ever cached. -/
def emptyStore : Store :=
  ⟨[]⟩

/-! # Lemmas -/

/-! ## UTF-8 round trip -/

theorem char_toNat_valid (c : Char) :
    c.toNat < 0xD800 ∨ (0xE000 ≤ c.toNat ∧ c.toNat < 0x110000) := by
  have h := c.valid
  rcases h with h | h
  · exact Or.inl h
  · exact Or.inr h

theorem utf8EncodeChar_lt (c : Char) : ∀ b ∈ utf8EncodeChar c, b < 256 := by
  intro b hb
  unfold utf8EncodeChar at hb
  have hv := char_toNat_valid c
  split at hb
  · simp only [List.mem_singleton] at hb; omega
  · split at hb
    · simp only [List.mem_cons, List.not_mem_nil, or_false] at hb
      rcases hb with h | h <;> omega
    · split at hb
      · simp only [List.mem_cons, List.not_mem_nil, or_false] at hb
        rcases hb with h | h | h <;> omega
      · simp only [List.mem_cons, List.not_mem_nil, or_false] at hb
        rcases hb with h | h | h | h <;> omega

theorem utf8DecodeChar1_encodeChar (c : Char) (bs : List Nat) :
    utf8DecodeChar1 (utf8EncodeChar c ++ bs) = some (c, bs) := by
  have hv := char_toNat_valid c
  have hc : Char.ofNat c.toNat = c := Char.ofNat_toNat c
  unfold utf8EncodeChar
  by_cases h1 : c.toNat < 0x80
  · rw [if_pos h1, List.cons_append, List.nil_append]
    unfold utf8DecodeChar1
    simp only
    rw [if_pos h1, hc]
  · rw [if_neg h1]
    by_cases h2 : c.toNat < 0x800
    · rw [if_pos h2, List.cons_append, List.cons_append, List.nil_append]
      unfold utf8DecodeChar1
      simp only
      rw [if_neg (by omega), if_neg (by omega), if_pos (by omega),
        if_pos (by constructor <;> omega)]
      have h : (0xC0 + c.toNat / 64 - 0xC0) * 64 + (0x80 + c.toNat % 64 - 0x80) = c.toNat := by
        omega
      rw [h, hc]
    · rw [if_neg h2]
      by_cases h3 : c.toNat < 0x10000
      · rw [if_pos h3, List.cons_append, List.cons_append, List.cons_append, List.nil_append]
        unfold utf8DecodeChar1
        simp only
        rw [if_neg (by omega), if_neg (by omega), if_neg (by omega), if_pos (by omega)]
        have hcond : ((if 0xE0 + c.toNat / 4096 = 0xE0 then (0xA0:Nat) else 0x80) ≤
              0x80 + c.toNat / 64 % 64 ∧
            0x80 + c.toNat / 64 % 64 <
              (if 0xE0 + c.toNat / 4096 = 0xED then (0xA0:Nat) else 0xC0)) ∧
            (0x80 ≤ 0x80 + c.toNat % 64 ∧ 0x80 + c.toNat % 64 < 0xC0) := by
          refine ⟨⟨?_, ?_⟩, by omega⟩
          · split <;> omega
          · split <;> omega
        rw [if_pos hcond]
        have h : ((0xE0 + c.toNat / 4096 - 0xE0) * 64 + (0x80 + c.toNat / 64 % 64 - 0x80)) * 64 +
            (0x80 + c.toNat % 64 - 0x80) = c.toNat := by omega
        rw [h, hc]
      · rw [if_neg h3, List.cons_append, List.cons_append, List.cons_append, List.cons_append,
          List.nil_append]
        unfold utf8DecodeChar1
        simp only
        rw [if_neg (by omega), if_neg (by omega), if_neg (by omega), if_neg (by omega),
          if_pos (by omega)]
        have hcond : ((if 0xF0 + c.toNat / 262144 = 0xF0 then (0x90:Nat) else 0x80) ≤
              0x80 + c.toNat / 4096 % 64 ∧
            0x80 + c.toNat / 4096 % 64 <
              (if 0xF0 + c.toNat / 262144 = 0xF4 then (0x90:Nat) else 0xC0)) ∧
            (0x80 ≤ 0x80 + c.toNat / 64 % 64 ∧ 0x80 + c.toNat / 64 % 64 < 0xC0) ∧
            (0x80 ≤ 0x80 + c.toNat % 64 ∧ 0x80 + c.toNat % 64 < 0xC0) := by
          refine ⟨⟨?_, ?_⟩, by omega, by omega⟩
          · split <;> omega
          · split <;> omega
        rw [if_pos hcond]
        have h : (((0xF0 + c.toNat / 262144 - 0xF0) * 64 + (0x80 + c.toNat / 4096 % 64 - 0x80)) *
              64 + (0x80 + c.toNat / 64 % 64 - 0x80)) * 64 + (0x80 + c.toNat % 64 - 0x80) =
            c.toNat := by omega
        rw [h, hc]

set_option maxRecDepth 4000 in
theorem utf8DecodeChar1_shrink (bs : List Nat) (p : Char × List Nat)
    (h : utf8DecodeChar1 bs = some p) : p.2.length < bs.length := by
  unfold utf8DecodeChar1 at h
  cases bs with
  | nil => cases h
  | cons b rest =>
    simp only at h
    repeat' split at h
    all_goals cases h
    all_goals subst_vars
    all_goals simp only [List.length_cons]
    all_goals omega

theorem utf8DecodeGo_fuel (f : Nat) :
    ∀ g bs, bs.length ≤ f → bs.length ≤ g → utf8DecodeGo f bs = utf8DecodeGo g bs := by
  induction f with
  | zero =>
    intro g bs hf _
    have hbs : bs = [] := by
      cases bs with
      | nil => rfl
      | cons b r => simp at hf
    subst hbs
    cases g <;> rfl
  | succ f ih =>
    intro g bs hf hg
    cases bs with
    | nil => cases g <;> rfl
    | cons b rest =>
      obtain ⟨g', rfl⟩ : ∃ g', g = g' + 1 := ⟨g - 1, by simp at hg; omega⟩
      simp only [utf8DecodeGo]
      cases hchar : utf8DecodeChar1 (b :: rest) with
      | none => rfl
      | some p =>
        simp only
        have hlen := utf8DecodeChar1_shrink _ _ hchar
        simp only [List.length_cons] at hlen hf hg
        rw [ih g' p.2 (by omega) (by omega)]

theorem utf8EncodeChar_ne_nil (c : Char) : utf8EncodeChar c ≠ [] := by
  unfold utf8EncodeChar
  split
  · simp
  · split
    · simp
    · split <;> simp

theorem utf8Decode_utf8Encode (cs : List Char) : utf8Decode (utf8Encode cs) = some cs := by
  suffices h : ∀ f cs2, (utf8Encode cs2).length ≤ f → utf8DecodeGo f (utf8Encode cs2) = some cs2 by
    exact h _ cs le_rfl
  intro f
  induction f with
  | zero =>
    intro cs2 h
    cases cs2 with
    | nil => rfl
    | cons c rest =>
      exfalso
      have henc : utf8Encode (c :: rest) = utf8EncodeChar c ++ utf8Encode rest := by
        simp [utf8Encode]
      rw [henc] at h
      simp only [List.length_append, Nat.le_zero] at h
      have := utf8EncodeChar_ne_nil c
      cases hE : utf8EncodeChar c with
      | nil => exact this hE
      | cons a t => rw [hE] at h; simp at h
  | succ f ih =>
    intro cs2 h
    cases cs2 with
    | nil => rfl
    | cons c rest =>
      have henc : utf8Encode (c :: rest) = utf8EncodeChar c ++ utf8Encode rest := by
        simp [utf8Encode]
      rw [henc] at h ⊢
      obtain ⟨e1, etail, he⟩ : ∃ e1 etail, utf8EncodeChar c = e1 :: etail := by
        cases hE : utf8EncodeChar c with
        | nil => exact absurd hE (utf8EncodeChar_ne_nil c)
        | cons a t => exact ⟨a, t, rfl⟩
      rw [he, List.cons_append]
      simp only [utf8DecodeGo]
      have hstep := utf8DecodeChar1_encodeChar c (utf8Encode rest)
      rw [he, List.cons_append] at hstep
      rw [hstep]
      simp only
      have hlen : (utf8Encode rest).length ≤ f := by
        rw [he] at h
        simp only [List.cons_append, List.length_cons, List.length_append] at h
        omega
      rw [ih rest hlen, Option.map_some']

/-! ## base64 round trip -/

theorem b64Char_spec : ∀ v, v < 64 →
    b64CharVal (b64Char v) = some v ∧ b64Char v ≠ '=' ∧ (b64Char v).toNat < 128 := by
  decide

theorem a2b_data_step (c : Char) (v : Nat) (hv : b64CharVal c = some v) (hne : c ≠ '=')
    (rest : List Char) (quad : List Nat) (hq : quad.length ≠ 3) (pads : Nat) :
    a2b (c :: rest) quad pads = a2b rest (quad ++ [v]) 0 := by
  simp only [a2b]
  rw [if_neg hne, hv]
  simp only
  rw [if_neg hq]

theorem a2b_full_step (c : Char) (v : Nat) (hv : b64CharVal c = some v) (hne : c ≠ '=')
    (rest : List Char) (quad : List Nat) (hq : quad.length = 3) (pads : Nat) :
    a2b (c :: rest) quad pads = (a2b rest [] 0).map (fun out => emitFull quad v ++ out) := by
  simp only [a2b]
  rw [if_neg hne, hv]
  simp only
  rw [if_pos hq]

theorem a2b_pad_step (rest : List Char) (quad : List Nat) (pads : Nat)
    (h2 : 2 ≤ quad.length) (h4 : ¬ 4 ≤ quad.length + (pads + 1)) :
    a2b ('=' :: rest) quad pads = a2b rest quad (pads + 1) := by
  simp only [a2b, if_true]
  rw [if_pos h2, if_neg h4]

theorem a2b_pad_done (rest : List Char) (quad : List Nat) (pads : Nat)
    (h2 : 2 ≤ quad.length) (h4 : 4 ≤ quad.length + (pads + 1)) :
    a2b ('=' :: rest) quad pads = some (emitPartial quad) := by
  simp only [a2b, if_true]
  rw [if_pos h2, if_pos h4]

theorem a2b_b64EncodeBytes (bytes : List Nat) (h : ∀ b ∈ bytes, b < 256) :
    a2b (b64EncodeBytes bytes) [] 0 = some bytes := by
  induction bytes using b64EncodeBytes.induct with
  | case1 b1 b2 b3 rest ih =>
    have hb1 : b1 < 256 := h b1 (by simp)
    have hb2 : b2 < 256 := h b2 (by simp)
    have hb3 : b3 < 256 := h b3 (by simp)
    have s1 := b64Char_spec (b1 / 4) (by omega)
    have s2 := b64Char_spec (b1 % 4 * 16 + b2 / 16) (by omega)
    have s3 := b64Char_spec (b2 % 16 * 4 + b3 / 64) (by omega)
    have s4 := b64Char_spec (b3 % 64) (by omega)
    rw [b64EncodeBytes]
    rw [a2b_data_step _ _ s1.1 s1.2.1 _ _ (by simp) _]
    rw [a2b_data_step _ _ s2.1 s2.2.1 _ _ (by simp) _]
    rw [a2b_data_step _ _ s3.1 s3.2.1 _ _ (by simp) _]
    rw [a2b_full_step _ _ s4.1 s4.2.1 _ _ (by simp) _]
    rw [ih (fun b hb => h b (by simp [hb]))]
    simp only [List.nil_append, List.cons_append, emitFull, Option.map_some',
      Option.some.injEq, List.cons.injEq]
    refine ⟨by omega, by omega, by omega, trivial⟩
  | case2 b1 b2 =>
    have hb1 : b1 < 256 := h b1 (by simp)
    have hb2 : b2 < 256 := h b2 (by simp)
    have s1 := b64Char_spec (b1 / 4) (by omega)
    have s2 := b64Char_spec (b1 % 4 * 16 + b2 / 16) (by omega)
    have s3 := b64Char_spec (b2 % 16 * 4) (by omega)
    rw [b64EncodeBytes]
    rw [a2b_data_step _ _ s1.1 s1.2.1 _ _ (by simp) _]
    rw [a2b_data_step _ _ s2.1 s2.2.1 _ _ (by simp) _]
    rw [a2b_data_step _ _ s3.1 s3.2.1 _ _ (by simp) _]
    rw [a2b_pad_done _ _ _ (by simp) (by simp)]
    simp only [List.nil_append, List.cons_append, emitPartial, Option.some.injEq,
      List.cons.injEq]
    refine ⟨by omega, by omega, trivial⟩
  | case3 b1 =>
    have hb1 : b1 < 256 := h b1 (by simp)
    have s1 := b64Char_spec (b1 / 4) (by omega)
    have s2 := b64Char_spec (b1 % 4 * 16) (by omega)
    rw [b64EncodeBytes]
    rw [a2b_data_step _ _ s1.1 s1.2.1 _ _ (by simp) _]
    rw [a2b_data_step _ _ s2.1 s2.2.1 _ _ (by simp) _]
    rw [a2b_pad_step _ _ _ (by simp) (by simp)]
    rw [a2b_pad_done _ _ _ (by simp) (by simp)]
    simp only [List.nil_append, List.cons_append, emitPartial, Option.some.injEq,
      List.cons.injEq]
    refine ⟨by omega, trivial⟩
  | case4 => rfl

theorem b64EncodeBytes_length (bytes : List Nat) :
    (b64EncodeBytes bytes).length % 4 = 0 := by
  induction bytes using b64EncodeBytes.induct with
  | case1 b1 b2 b3 rest ih => simp [b64EncodeBytes, ih]; omega
  | case2 b1 b2 => simp [b64EncodeBytes]
  | case3 b1 => simp [b64EncodeBytes]
  | case4 => rfl

theorem b64EncodeBytes_ascii (bytes : List Nat) (h : ∀ b ∈ bytes, b < 256) :
    ∀ c ∈ b64EncodeBytes bytes, c.toNat < 128 := by
  induction bytes using b64EncodeBytes.induct with
  | case1 b1 b2 b3 rest ih =>
    have hb1 : b1 < 256 := h b1 (by simp)
    have hb2 : b2 < 256 := h b2 (by simp)
    have hb3 : b3 < 256 := h b3 (by simp)
    intro c hc
    rw [b64EncodeBytes] at hc
    simp only [List.mem_cons] at hc
    rcases hc with rfl | rfl | rfl | rfl | hc
    · exact (b64Char_spec _ (by omega)).2.2
    · exact (b64Char_spec _ (by omega)).2.2
    · exact (b64Char_spec _ (by omega)).2.2
    · exact (b64Char_spec _ (by omega)).2.2
    · exact ih (fun b hb => h b (by simp [hb])) c hc
  | case2 b1 b2 =>
    have hb1 : b1 < 256 := h b1 (by simp)
    have hb2 : b2 < 256 := h b2 (by simp)
    intro c hc
    rw [b64EncodeBytes] at hc
    simp only [List.mem_cons, List.not_mem_nil, or_false] at hc
    rcases hc with rfl | rfl | rfl | rfl
    · exact (b64Char_spec _ (by omega)).2.2
    · exact (b64Char_spec _ (by omega)).2.2
    · exact (b64Char_spec _ (by omega)).2.2
    · decide
  | case3 b1 =>
    have hb1 : b1 < 256 := h b1 (by simp)
    intro c hc
    rw [b64EncodeBytes] at hc
    simp only [List.mem_cons, List.not_mem_nil, or_false] at hc
    rcases hc with rfl | rfl | rfl | rfl
    · exact (b64Char_spec _ (by omega)).2.2
    · exact (b64Char_spec _ (by omega)).2.2
    · decide
    · decide
  | case4 => intro c hc; cases hc

theorem utf8Encode_lt (cs : List Char) : ∀ b ∈ utf8Encode cs, b < 256 := by
  intro b hb
  unfold utf8Encode at hb
  simp only [List.mem_flatten, List.mem_map] at hb
  obtain ⟨l, ⟨c, _, rfl⟩, hbl⟩ := hb
  exact utf8EncodeChar_lt c b hbl

/-- Any string whose deterministic re-padding step lands exactly on the
encoded form of u decodes to u. -/
theorem decode_url_safe_padded (u s : String)
    (hpad : (if s.data.length % 4 = 0 then s.data
        else s.data ++ List.replicate (4 - s.data.length % 4) '=') =
      b64EncodeBytes (utf8Encode u.data)) :
    decode_url_safe s = some u := by
  unfold decode_url_safe
  simp only
  rw [hpad]
  rw [List.all_eq_true.mpr (fun c hc => by
    simpa using b64EncodeBytes_ascii (utf8Encode u.data) (utf8Encode_lt u.data) c hc)]
  simp only [if_pos]
  rw [a2b_b64EncodeBytes (utf8Encode u.data) (utf8Encode_lt u.data)]
  simp only [utf8Decode_utf8Encode]

/-- The codec round trip on every string: decoding an encoded URL restores
it exactly.  (The claims restrict this to validated URLs; it holds for all.) -/
theorem decode_encode_url_safe (u : String) :
    decode_url_safe (encode_url_safe u) = some u := by
  apply decode_url_safe_padded
  show (if (b64EncodeBytes (utf8Encode u.data)).length % 4 = 0 then _ else _) = _
  rw [if_pos (b64EncodeBytes_length (utf8Encode u.data))]
  rfl

/-- The encoded form always splits into pad-free data characters followed by
0, 1 or 2 padding characters, with the data length mod 4 determining the pad
count. -/
theorem b64EncodeBytes_structure (bytes : List Nat) (h : ∀ b ∈ bytes, b < 256) :
    ∃ d k, b64EncodeBytes bytes = d ++ List.replicate k '=' ∧ (∀ c ∈ d, c ≠ '=') ∧
      ((k = 0 ∧ d.length % 4 = 0) ∨ (k = 1 ∧ d.length % 4 = 3) ∨
        (k = 2 ∧ d.length % 4 = 2)) := by
  induction bytes using b64EncodeBytes.induct with
  | case1 b1 b2 b3 rest ih =>
    have hb1 : b1 < 256 := h b1 (by simp)
    have hb2 : b2 < 256 := h b2 (by simp)
    have hb3 : b3 < 256 := h b3 (by simp)
    obtain ⟨d, k, heq, hne, hk⟩ := ih (fun b hb => h b (by simp [hb]))
    refine ⟨b64Char (b1 / 4) :: b64Char (b1 % 4 * 16 + b2 / 16) ::
      b64Char (b2 % 16 * 4 + b3 / 64) :: b64Char (b3 % 64) :: d, k, ?_, ?_, ?_⟩
    · rw [b64EncodeBytes, heq]
      simp
    · intro c hc
      simp only [List.mem_cons] at hc
      rcases hc with rfl | rfl | rfl | rfl | hc
      · exact (b64Char_spec _ (by omega)).2.1
      · exact (b64Char_spec _ (by omega)).2.1
      · exact (b64Char_spec _ (by omega)).2.1
      · exact (b64Char_spec _ (by omega)).2.1
      · exact hne c hc
    · simp only [List.length_cons]
      omega
  | case2 b1 b2 =>
    have hb1 : b1 < 256 := h b1 (by simp)
    have hb2 : b2 < 256 := h b2 (by simp)
    refine ⟨[b64Char (b1 / 4), b64Char (b1 % 4 * 16 + b2 / 16), b64Char (b2 % 16 * 4)], 1,
      by simp [b64EncodeBytes], ?_, by simp⟩
    intro c hc
    simp only [List.mem_cons, List.not_mem_nil, or_false] at hc
    rcases hc with rfl | rfl | rfl
    · exact (b64Char_spec _ (by omega)).2.1
    · exact (b64Char_spec _ (by omega)).2.1
    · exact (b64Char_spec _ (by omega)).2.1
  | case3 b1 =>
    have hb1 : b1 < 256 := h b1 (by simp)
    refine ⟨[b64Char (b1 / 4), b64Char (b1 % 4 * 16)], 2,
      by simp [b64EncodeBytes], ?_, by simp⟩
    intro c hc
    simp only [List.mem_cons, List.not_mem_nil, or_false] at hc
    rcases hc with rfl | rfl
    · exact (b64Char_spec _ (by omega)).2.1
    · exact (b64Char_spec _ (by omega)).2.1
  | case4 => exact ⟨[], 0, rfl, by simp, by simp⟩

/-- Stripping the trailing padding of data-plus-padding leaves the data. -/
theorem stripPadding_append_replicate (d : List Char) (k : Nat) (hd : ∀ c ∈ d, c ≠ '=') :
    stripPadding (String.mk (d ++ List.replicate k '=')) = String.mk d := by
  unfold stripPadding
  congr 1
  show ((d ++ List.replicate k '=').reverse.dropWhile (fun c => c = '=')).reverse = d
  rw [List.reverse_append, List.reverse_replicate]
  rw [List.dropWhile_append]
  have hrep : List.dropWhile (fun c => decide (c = '=')) (List.replicate k '=') = [] := by
    rw [List.dropWhile_eq_nil_iff]
    intro c hc
    rw [List.eq_of_mem_replicate hc]
    simp
  rw [hrep]
  simp only [List.isEmpty_nil, if_pos]
  have hdrop : List.dropWhile (fun c => decide (c = '=')) d.reverse = d.reverse := by
    cases hrev : d.reverse with
    | nil => rfl
    | cons c tail =>
      rw [List.dropWhile_cons]
      have hc : c ∈ d := by
        rw [← List.mem_reverse, hrev]
        simp
      rw [if_neg (by simpa using hd c hc)]
  rw [hdrop, List.reverse_reverse]

/-- Decoding the padding-stripped encoded form also restores the URL: the
decoder recomputes exactly the stripped padding from the length mod 4. -/
theorem decode_strip_encode (u : String) :
    decode_url_safe (stripPadding (encode_url_safe u)) = some u := by
  obtain ⟨d, k, heq, hne, hk⟩ :=
    b64EncodeBytes_structure (utf8Encode u.data) (utf8Encode_lt u.data)
  have hstr : stripPadding (encode_url_safe u) = String.mk d := by
    unfold encode_url_safe
    rw [heq]
    exact stripPadding_append_replicate d k hne
  rw [hstr]
  apply decode_url_safe_padded
  show (if d.length % 4 = 0 then d else d ++ List.replicate (4 - d.length % 4) '=') = _
  rcases hk with ⟨rfl, h0⟩ | ⟨rfl, h3⟩ | ⟨rfl, h2⟩
  · rw [if_pos h0, heq]
    simp
  · rw [if_neg (by omega), heq, h3]
  · rw [if_neg (by omega), heq, h2]

/-! ## URL validation -/

theorem isPrefixOf_append_self (l m : List Char) : l.isPrefixOf (l ++ m) = true := by
  rw [List.isPrefixOf_iff_prefix]
  exact ⟨m, rfl⟩

theorem pyStartsWith_prepend (s : String) : pyStartsWith ("https://" ++ s) "https://" = true := by
  unfold pyStartsWith
  rw [String.data_append]
  exact isPrefixOf_append_self _ _

/-- Whatever get_and_validate_url returns starts with "https://" and passes
is_valid_https_url. -/
theorem get_and_validate_url_some (s u : String) (h : get_and_validate_url s = some u) :
    pyStartsWith u "https://" = true ∧ is_valid_https_url u = true := by
  unfold get_and_validate_url at h
  simp only at h
  by_cases hs : pyStartsWith s "https://" = true
  · rw [if_pos hs] at h
    by_cases hv : is_valid_https_url s = true
    · rw [if_pos hv] at h
      cases h
      exact ⟨hs, hv⟩
    · rw [if_neg hv] at h
      cases h
  · rw [if_neg hs] at h
    by_cases hv : is_valid_https_url ("https://" ++ s) = true
    · rw [if_pos hv] at h
      cases h
      exact ⟨pyStartsWith_prepend s, hv⟩
    · rw [if_neg hv] at h
      cases h

/-- An http-scheme candidate never starts with the literal "https://". -/
theorem pyStartsWith_http_scheme (r : String) :
    pyStartsWith ("http://" ++ r) "https://" = false := by
  unfold pyStartsWith
  rw [String.data_append]
  have h1 : "https://".data = ['h', 't', 't', 'p', 's', ':', '/', '/'] := rfl
  have h2 : "http://".data = ['h', 't', 't', 'p', ':', '/', '/'] := rfl
  rw [h1, h2]
  simp [List.isPrefixOf]

/-- Prepending "https://" to an http URL yields a string that urlsplit parses
with scheme https and the non-empty netloc "http:", so validation passes. -/
theorem is_valid_https_http (r : String) :
    is_valid_https_url ("https://http://" ++ r) = true := by
  unfold is_valid_https_url urlSchemeNetloc
  have h2 : "https://http://".data =
    ['h', 't', 't', 'p', 's', ':', '/', '/', 'h', 't', 't', 'p', ':', '/', '/'] := rfl
  rw [String.data_append, h2]
  simp [removeUnsafe, c0ControlOrSpace, splitAtColon, isSchemeChar, netlocDelim]

theorem https_prepend_http (r : String) :
    "https://" ++ ("http://" ++ r) = "https://http://" ++ r := by
  rw [← String.append_assoc]
  have h : "https://" ++ "http://" = "https://http://" := rfl
  rw [h]

/-! ## The bounded heap and the descending sort -/

theorem insertDesc_nil (e : SummaryEntry) : insertDesc e [] = [e] := rfl

theorem insertDesc_cons (e x : SummaryEntry) (xs : List SummaryEntry) :
    insertDesc e (x :: xs) =
      if x.timestamp < e.timestamp then e :: x :: xs else x :: insertDesc e xs := by
  rw [insertDesc]

theorem heapInsert_nil (e : SummaryEntry) : heapInsert e [] = [e] := rfl

theorem heapInsert_cons (e x : SummaryEntry) (xs : List SummaryEntry) :
    heapInsert e (x :: xs) =
      if e.timestamp < x.timestamp then e :: x :: xs else x :: heapInsert e xs := by
  rw [heapInsert]

theorem insertDesc_length (e : SummaryEntry) (l : List SummaryEntry) :
    (insertDesc e l).length = l.length + 1 := by
  induction l with
  | nil => rfl
  | cons x xs ih =>
    rw [insertDesc_cons]
    split
    · simp
    · simp [ih]

theorem heapInsert_length (e : SummaryEntry) (l : List SummaryEntry) :
    (heapInsert e l).length = l.length + 1 := by
  induction l with
  | nil => rfl
  | cons x xs ih =>
    rw [heapInsert_cons]
    split
    · simp
    · simp [ih]

theorem insertDesc_perm (e : SummaryEntry) (l : List SummaryEntry) :
    (insertDesc e l).Perm (e :: l) := by
  induction l with
  | nil => exact List.Perm.refl _
  | cons x xs ih =>
    rw [insertDesc_cons]
    split
    · exact List.Perm.refl _
    · exact ((ih.cons x).trans (List.Perm.swap e x xs)).symm.symm

theorem insertionSortDesc_perm (l : List SummaryEntry) :
    (insertionSortDesc l).Perm l := by
  induction l with
  | nil => exact List.Perm.refl _
  | cons x xs ih =>
    rw [insertionSortDesc]
    exact (insertDesc_perm x (insertionSortDesc xs)).trans (ih.cons x)

theorem insertDesc_pairwise_ge (e : SummaryEntry) (l : List SummaryEntry)
    (h : l.Pairwise (fun a b => b.timestamp ≤ a.timestamp)) :
    (insertDesc e l).Pairwise (fun a b => b.timestamp ≤ a.timestamp) := by
  induction l with
  | nil =>
    rw [insertDesc_nil]
    exact List.pairwise_singleton _ _
  | cons x xs ih =>
    rw [List.pairwise_cons] at h
    rw [insertDesc_cons]
    split
    case isTrue hlt =>
      rw [List.pairwise_cons]
      refine ⟨?_, List.pairwise_cons.mpr h⟩
      intro a ha
      simp only [List.mem_cons] at ha
      rcases ha with rfl | ha
      · omega
      · have := h.1 a ha
        omega
    case isFalse hlt =>
      rw [List.pairwise_cons]
      refine ⟨?_, ih h.2⟩
      intro a ha
      have hmem := (insertDesc_perm e xs).mem_iff.mp ha
      simp only [List.mem_cons] at hmem
      rcases hmem with rfl | hmem
      · omega
      · exact h.1 a hmem

theorem insertionSortDesc_pairwise_ge (l : List SummaryEntry) :
    (insertionSortDesc l).Pairwise (fun a b => b.timestamp ≤ a.timestamp) := by
  induction l with
  | nil => simp [insertionSortDesc]
  | cons x xs ih => exact insertDesc_pairwise_ge x _ ih

theorem pairwise_gt_of_ge_ne (l : List SummaryEntry)
    (hge : l.Pairwise (fun a b => b.timestamp ≤ a.timestamp))
    (hne : l.Pairwise (fun a b => a.timestamp ≠ b.timestamp)) :
    l.Pairwise (fun a b => b.timestamp < a.timestamp) := by
  have h := hge.and hne
  exact h.imp (fun hab => by omega)

theorem heapInsert_all_le (e : SummaryEntry) (l : List SummaryEntry)
    (h : ∀ x ∈ l, ¬ e.timestamp < x.timestamp) :
    heapInsert e l = l ++ [e] := by
  induction l with
  | nil => rfl
  | cons x xs ih =>
    rw [heapInsert_cons, if_neg (h x (by simp))]
    rw [ih (fun y hy => h y (by simp [hy]))]
    rfl

theorem heapInsert_append_gt (e x : SummaryEntry) (l : List SummaryEntry)
    (h : e.timestamp < x.timestamp) :
    heapInsert e (l ++ [x]) = heapInsert e l ++ [x] := by
  induction l with
  | nil =>
    simp only [List.nil_append]
    rw [heapInsert_cons, if_pos h, heapInsert_nil]
    rfl
  | cons y ys ih =>
    rw [List.cons_append, heapInsert_cons, heapInsert_cons]
    split
    · rfl
    · rw [ih]
      rfl

theorem insertDesc_append_lt (e m : SummaryEntry) (l : List SummaryEntry)
    (h : m.timestamp < e.timestamp) :
    insertDesc e (l ++ [m]) = insertDesc e l ++ [m] := by
  induction l with
  | nil =>
    simp only [List.nil_append]
    rw [insertDesc_cons, if_pos h, insertDesc_nil]
    rfl
  | cons y ys ih =>
    rw [List.cons_append, insertDesc_cons, insertDesc_cons]
    split
    · rfl
    · rw [ih]
      rfl

theorem heapInsert_reverse (e : SummaryEntry) (S : List SummaryEntry)
    (hs : S.Pairwise (fun a b => b.timestamp < a.timestamp))
    (hf : ∀ x ∈ S, e.timestamp ≠ x.timestamp) :
    heapInsert e S.reverse = (insertDesc e S).reverse := by
  induction S with
  | nil => rfl
  | cons x xs ih =>
    rw [List.pairwise_cons] at hs
    rw [insertDesc_cons]
    split
    case isTrue hlt =>
      have hall : ∀ y ∈ (x :: xs).reverse, ¬ e.timestamp < y.timestamp := by
        intro y hy
        rw [List.mem_reverse] at hy
        simp only [List.mem_cons] at hy
        rcases hy with rfl | hy
        · omega
        · have := hs.1 y hy
          omega
      rw [heapInsert_all_le e _ hall]
      simp
    case isFalse hlt =>
      have hne : e.timestamp ≠ x.timestamp := hf x (by simp)
      have hlt2 : e.timestamp < x.timestamp := by omega
      rw [List.reverse_cons, heapInsert_append_gt e x _ hlt2,
        ih hs.2 (fun y hy => hf y (by simp [hy])), List.reverse_cons]

theorem insertDesc_comm_lt (a b : SummaryEntry) (l : List SummaryEntry)
    (hba : b.timestamp < a.timestamp) :
    insertDesc a (insertDesc b l) = insertDesc b (insertDesc a l) := by
  induction l with
  | nil =>
    rw [insertDesc_nil, insertDesc_nil, insertDesc_cons, if_pos hba,
      insertDesc_cons, if_neg (by omega), insertDesc_nil]
  | cons x xs ih =>
    by_cases hxa : x.timestamp < a.timestamp
    · by_cases hxb : x.timestamp < b.timestamp
      · rw [show insertDesc b (x :: xs) = b :: x :: xs from by
          rw [insertDesc_cons, if_pos hxb]]
        rw [show insertDesc a (b :: x :: xs) = a :: b :: x :: xs from by
          rw [insertDesc_cons, if_pos hba]]
        rw [show insertDesc a (x :: xs) = a :: x :: xs from by
          rw [insertDesc_cons, if_pos hxa]]
        rw [insertDesc_cons, if_neg (by omega), insertDesc_cons, if_pos hxb]
      · rw [show insertDesc b (x :: xs) = x :: insertDesc b xs from by
          rw [insertDesc_cons, if_neg hxb]]
        rw [show insertDesc a (x :: insertDesc b xs) = a :: x :: insertDesc b xs from by
          rw [insertDesc_cons, if_pos hxa]]
        rw [show insertDesc a (x :: xs) = a :: x :: xs from by
          rw [insertDesc_cons, if_pos hxa]]
        rw [insertDesc_cons, if_neg (by omega), insertDesc_cons, if_neg hxb]
    · have hxb : ¬ x.timestamp < b.timestamp := by omega
      rw [show insertDesc b (x :: xs) = x :: insertDesc b xs from by
        rw [insertDesc_cons, if_neg hxb]]
      rw [show insertDesc a (x :: insertDesc b xs) = x :: insertDesc a (insertDesc b xs) from by
        rw [insertDesc_cons, if_neg hxa]]
      rw [show insertDesc a (x :: xs) = x :: insertDesc a xs from by
        rw [insertDesc_cons, if_neg hxa]]
      rw [show insertDesc b (x :: insertDesc a xs) = x :: insertDesc b (insertDesc a xs) from by
        rw [insertDesc_cons, if_neg hxb]]
      rw [ih]

theorem insertDesc_comm (a b : SummaryEntry) (l : List SummaryEntry)
    (h : a.timestamp ≠ b.timestamp) :
    insertDesc a (insertDesc b l) = insertDesc b (insertDesc a l) := by
  rcases Nat.lt_or_ge a.timestamp b.timestamp with hab | hab
  · exact (insertDesc_comm_lt b a l hab).symm
  · exact insertDesc_comm_lt a b l (by omega)

theorem insertionSortDesc_append_single (l : List SummaryEntry) (e : SummaryEntry)
    (h : ∀ x ∈ l, x.timestamp ≠ e.timestamp) :
    insertionSortDesc (l ++ [e]) = insertDesc e (insertionSortDesc l) := by
  induction l with
  | nil => rfl
  | cons x xs ih =>
    rw [List.cons_append, insertionSortDesc, insertionSortDesc,
      ih (fun y hy => h y (by simp [hy]))]
    exact insertDesc_comm x e _ (by have hx := h x (by simp); omega)

theorem take_insertDesc_of_lt (K : Nat) (e : SummaryEntry) (l : List SummaryEntry)
    (hK : K ≤ l.length) (h : ∀ a ∈ l.take K, e.timestamp < a.timestamp) :
    (insertDesc e l).take K = l.take K := by
  induction l generalizing K with
  | nil =>
    have : K = 0 := by simpa using hK
    subst this
    rfl
  | cons x xs ih =>
    cases K with
    | zero => rfl
    | succ k =>
      have hx : e.timestamp < x.timestamp := h x (by simp)
      rw [insertDesc_cons, if_neg (by omega)]
      rw [List.take_succ_cons, List.take_succ_cons]
      rw [ih k (by simpa using hK) (fun a ha => h a (by simp [ha]))]

theorem take_insertDesc_take (K : Nat) (e : SummaryEntry) (l : List SummaryEntry) :
    (insertDesc e l).take K = (insertDesc e (l.take K)).take K := by
  induction l generalizing K with
  | nil => simp
  | cons x xs ih =>
    cases K with
    | zero => rfl
    | succ k =>
      rw [List.take_succ_cons, insertDesc_cons, insertDesc_cons]
      split
      · cases k with
        | zero => rfl
        | succ k2 =>
          simp only [List.take_succ_cons, List.take_take]
          have hmin : min k2 (k2 + 1) = k2 := by omega
          rw [hmin]
      · simp only [List.take_succ_cons]
        rw [ih k]

theorem insertionSortDesc_reverse_sorted (l : List SummaryEntry)
    (h : l.Pairwise (fun a b => b.timestamp < a.timestamp)) :
    insertionSortDesc l.reverse = l := by
  induction l with
  | nil => rfl
  | cons x xs ih =>
    rw [List.pairwise_cons] at h
    rw [List.reverse_cons]
    rw [insertionSortDesc_append_single _ _ (fun y hy => by
      rw [List.mem_reverse] at hy
      have := h.1 y hy
      omega)]
    rw [ih h.2]
    cases xs with
    | nil => rfl
    | cons y ys =>
      rw [insertDesc_cons, if_pos (h.1 y (by simp))]

theorem exists_concat_of_length_pos (l : List SummaryEntry) (h : 0 < l.length) :
    ∃ l2 m, l = l2 ++ [m] := by
  cases hrev : l.reverse with
  | nil =>
    rw [← List.reverse_reverse l, hrev] at h
    simp at h
  | cons m rest =>
    refine ⟨rest.reverse, m, ?_⟩
    rw [← List.reverse_reverse l, hrev, List.reverse_cons]

/-- The heap after folding the scan step over entries with pairwise-distinct
timestamps is exactly the reversed K newest (the descending sort truncated to
K, reversed into ascending heap order). -/
theorem scan_foldl_eq (K : Nat) (E : List SummaryEntry)
    (hne : E.Pairwise (fun a b => a.timestamp ≠ b.timestamp)) :
    List.foldl (scanStep K) [] E = ((insertionSortDesc E).take K).reverse := by
  induction E using List.reverseRecOn with
  | nil => simp [insertionSortDesc]
  | append_singleton E e ih =>
    rw [List.pairwise_append] at hne
    have hErest : E.Pairwise (fun a b => a.timestamp ≠ b.timestamp) := hne.1
    have hfresh : ∀ a ∈ E, a.timestamp ≠ e.timestamp := fun a ha =>
      hne.2.2 a ha e (by simp)
    have hSperm := insertionSortDesc_perm E
    have hSne : (insertionSortDesc E).Pairwise (fun a b => a.timestamp ≠ b.timestamp) :=
      (hSperm.pairwise_iff (fun hab => hab.symm)).mpr hErest
    have hSgt : (insertionSortDesc E).Pairwise (fun a b => b.timestamp < a.timestamp) :=
      pairwise_gt_of_ge_ne _ (insertionSortDesc_pairwise_ge E) hSne
    have hSfresh : ∀ a ∈ insertionSortDesc E, a.timestamp ≠ e.timestamp := fun a ha =>
      hfresh a (hSperm.mem_iff.mp ha)
    rw [List.foldl_append, List.foldl_cons, List.foldl_nil, ih hErest]
    rw [insertionSortDesc_append_single E e hfresh]
    set S := insertionSortDesc E with hS
    unfold scanStep
    rw [List.length_reverse, List.length_take]
    by_cases hlt : min K S.length < K
    · rw [if_pos hlt]
      have hSlen : S.length < K := by omega
      rw [List.take_of_length_le (by omega : S.length ≤ K)]
      unfold heapPush
      rw [heapInsert_reverse e S hSgt (fun x hx => (hSfresh x hx).symm)]
      rw [List.take_of_length_le (by rw [insertDesc_length]; omega)]
    · rw [if_neg hlt]
      have hKS : K ≤ S.length := by omega
      cases hK0 : K with
      | zero =>
        simp only [List.take_zero, List.reverse_nil]
        rfl
      | succ k =>
        subst hK0
        have hTlen : (S.take (k + 1)).length = k + 1 := by
          rw [List.length_take]
          omega
        obtain ⟨T2, m, hT⟩ := exists_concat_of_length_pos (S.take (k + 1)) (by omega)
        have hTgt : (S.take (k + 1)).Pairwise (fun a b => b.timestamp < a.timestamp) :=
          List.Pairwise.sublist (List.take_sublist _ _) hSgt
        have hT2gt : T2.Pairwise (fun a b => b.timestamp < a.timestamp) := by
          rw [hT, List.pairwise_append] at hTgt
          exact hTgt.1
        have hmlt : ∀ a ∈ T2, m.timestamp < a.timestamp := by
          rw [hT, List.pairwise_append] at hTgt
          intro a ha
          exact hTgt.2.2 a ha m (by simp)
        have hmmem : m ∈ S := (List.take_sublist (k + 1) S).mem (by rw [hT]; simp)
        have hme : m.timestamp ≠ e.timestamp := hSfresh m hmmem
        have hT2len : T2.length = k := by
          have := hTlen
          rw [hT] at this
          simp at this
          omega
        rw [hT, List.reverse_append, List.reverse_singleton, List.singleton_append]
        unfold heapPushPop
        simp only
        by_cases hcmp : m.timestamp < e.timestamp
        · rw [if_pos hcmp]
          have hstep1 : (insertDesc e S).take (k + 1) =
              (insertDesc e (S.take (k + 1))).take (k + 1) := take_insertDesc_take _ _ _
          rw [hstep1, hT, insertDesc_append_lt e m T2 hcmp]
          rw [List.take_left' (by rw [insertDesc_length]; omega)]
          have hT2fresh : ∀ x ∈ T2, e.timestamp ≠ x.timestamp := by
            intro x hx
            have hxS : x ∈ S := (List.take_sublist (k + 1) S).mem (by rw [hT]; simp [hx])
            exact (hSfresh x hxS).symm
          rw [← heapInsert_reverse e T2 hT2gt hT2fresh]
        · rw [if_neg hcmp]
          have helt : ∀ a ∈ S.take (k + 1), e.timestamp < a.timestamp := by
            intro a ha
            rw [hT] at ha
            rcases List.mem_append.mp ha with ha2 | ham
            · have := hmlt a ha2
              omega
            · rw [List.mem_singleton.mp ham]
              omega
          rw [take_insertDesc_of_lt (k + 1) e S hKS helt]
          rw [hT, List.reverse_append, List.reverse_singleton, List.singleton_append]

/-! ## The scan loop -/

theorem scanStep_length_le (K : Nat) (heap : List SummaryEntry) (e : SummaryEntry)
    (h : heap.length ≤ K) : (scanStep K heap e).length ≤ K := by
  unfold scanStep
  split
  case isTrue hlt =>
    unfold heapPush
    rw [heapInsert_length]
    omega
  case isFalse hlt =>
    unfold heapPushPop
    cases heap with
    | nil => simp
    | cons m rest =>
      simp only
      split
      · rw [heapInsert_length]
        simp only [List.length_cons] at h
        omega
      · exact h

theorem scanBlobs_length_le (K : Nat) (listing : List Blob) :
    ∀ heap0 heapRes, heap0.length ≤ K → scanBlobs K heap0 listing = some heapRes →
      heapRes.length ≤ K := by
  induction listing with
  | nil =>
    intro heap0 heapRes h0 hscan
    rw [scanBlobs] at hscan
    cases hscan
    exact h0
  | cons b rest ih =>
    intro heap0 heapRes h0 hscan
    rw [scanBlobs] at hscan
    cases hbn : b.name with
    | none =>
      rw [hbn] at hscan
      exact ih heap0 heapRes h0 hscan
    | some nm =>
      rw [hbn] at hscan
      simp only at hscan
      by_cases hgz : pyEndsWith nm ".gz" = true
      · rw [if_pos hgz] at hscan
        cases hbt : b.time_created with
        | none =>
          rw [hbt] at hscan
          exact ih heap0 heapRes h0 hscan
        | some t =>
          rw [hbt] at hscan
          simp only at hscan
          cases hdec : url_from_blob_name nm with
          | none =>
            rw [hdec] at hscan
            cases hscan
          | some u =>
            rw [hdec] at hscan
            simp only at hscan
            exact ih _ heapRes (scanStep_length_le K heap0 ⟨u, t⟩ h0) hscan
      · rw [if_neg hgz] at hscan
        exact ih heap0 heapRes h0 hscan

/-- A qualifying entry whose key does not decode aborts the whole scan (the
ValueError propagates to the handler), whatever came before or after it. -/
theorem scanBlobs_append_bad (K : Nat) (l1 l2 : List Blob) (bad : Blob) (nm : String)
    (hn : bad.name = some nm) (hgz : pyEndsWith nm ".gz" = true)
    (ht : bad.time_created.isSome = true) (hdec : url_from_blob_name nm = none) :
    ∀ heap, scanBlobs K heap (l1 ++ bad :: l2) = none := by
  induction l1 with
  | nil =>
    intro heap
    rw [List.nil_append, scanBlobs, hn]
    simp only
    rw [if_pos hgz]
    obtain ⟨t, ht2⟩ := Option.isSome_iff_exists.mp ht
    rw [ht2]
    simp only
    rw [hdec]
  | cons b l1x ih =>
    intro heap
    rw [List.cons_append, scanBlobs]
    cases hbn : b.name with
    | none => exact ih heap
    | some nm2 =>
      simp only
      by_cases hgz2 : pyEndsWith nm2 ".gz" = true
      · rw [if_pos hgz2]
        cases hbt : b.time_created with
        | none => exact ih heap
        | some t2 =>
          simp only
          cases hdec2 : url_from_blob_name nm2 with
          | none => rfl
          | some u2 =>
            simp only
            exact ih _
      · rw [if_neg hgz2]
        exact ih heap

theorem listingEntries_cons_qualifying (b : Blob) (rest : List Blob) (nm : String)
    (t : Nat) (u : String) (hn : b.name = some nm) (ht : b.time_created = some t)
    (hgz : pyEndsWith nm ".gz" = true) (hdec : url_from_blob_name nm = some u) :
    listingEntries (b :: rest) = ⟨u, t⟩ :: listingEntries rest := by
  unfold listingEntries
  rw [List.filterMap_cons]
  simp only [hn, ht, hgz, hdec, if_true, Option.map_some']

/-- On an all-qualifying listing, the scan succeeds and is the fold of the
heap step over the decoded entries. -/
theorem scanBlobs_eq_foldl (K : Nat) (listing : List Blob)
    (hq : ∀ b ∈ listing, qualifiesOk b = true) :
    ∀ heap, scanBlobs K heap listing =
      some (List.foldl (scanStep K) heap (listingEntries listing)) := by
  induction listing with
  | nil =>
    intro heap
    rw [scanBlobs]
    rfl
  | cons b rest ih =>
    intro heap
    have hqb := hq b (by simp)
    unfold qualifiesOk at hqb
    cases hbn : b.name with
    | none => rw [hbn] at hqb; cases hqb
    | some nm =>
      cases hbt : b.time_created with
      | none => rw [hbn, hbt] at hqb; cases hqb
      | some t =>
        rw [hbn, hbt] at hqb
        simp only [Bool.and_eq_true] at hqb
        obtain ⟨u, hdec⟩ := Option.isSome_iff_exists.mp hqb.2
        rw [scanBlobs, hbn]
        simp only
        rw [if_pos hqb.1, hbt]
        simp only
        rw [hdec]
        simp only
        rw [listingEntries_cons_qualifying b rest nm t u hbn hbt hqb.1 hdec,
          List.foldl_cons]
        exact ih (fun b2 hb2 => hq b2 (by simp [hb2])) _

theorem listingEntries_length (listing : List Blob)
    (hq : ∀ b ∈ listing, qualifiesOk b = true) :
    (listingEntries listing).length = listing.length := by
  induction listing with
  | nil => rfl
  | cons b rest ih =>
    have hqb := hq b (by simp)
    unfold qualifiesOk at hqb
    cases hbn : b.name with
    | none => rw [hbn] at hqb; cases hqb
    | some nm =>
      cases hbt : b.time_created with
      | none => rw [hbn, hbt] at hqb; cases hqb
      | some t =>
        rw [hbn, hbt] at hqb
        simp only [Bool.and_eq_true] at hqb
        obtain ⟨u, hdec⟩ := Option.isSome_iff_exists.mp hqb.2
        rw [listingEntries_cons_qualifying b rest nm t u hbn hbt hqb.1 hdec]
        simp only [List.length_cons]
        rw [ih (fun b2 hb2 => hq b2 (by simp [hb2]))]

/-- On an all-qualifying listing with distinct timestamps and no enumeration
failure, the result is the descending sort truncated to max_entries, mapped
to (url, formatted timestamp) pairs. -/
theorem get_recent_summaries_eq (K : Nat) (listing : List Blob)
    (hq : ∀ b ∈ listing, qualifiesOk b = true)
    (hne : (listingEntries listing).Pairwise (fun a b => a.timestamp ≠ b.timestamp)) :
    get_recent_summaries K listing false =
      ((insertionSortDesc (listingEntries listing)).take K).map
        (fun e => (e.url, formatTimestamp e.timestamp)) := by
  unfold get_recent_summaries
  rw [scanBlobs_eq_foldl K listing hq []]
  simp only
  rw [scan_foldl_eq K _ hne]
  have hSgt : ((insertionSortDesc (listingEntries listing)).take K).Pairwise
      (fun a b => b.timestamp < a.timestamp) := by
    apply List.Pairwise.sublist (List.take_sublist _ _)
    apply pairwise_gt_of_ge_ne _ (insertionSortDesc_pairwise_ge _)
    exact ((insertionSortDesc_perm _).pairwise_iff (fun hab => hab.symm)).mpr hne
  rw [insertionSortDesc_reverse_sorted _ hSgt]
  simp

/-! ## JSON string escaping round trip -/

theorem hexVal_hexDigitChar : ∀ n, n < 16 → hexVal (hexDigitChar n) = some n := by
  decide

theorem hex4_reassemble (n : Nat) (h : n < 0x10000) :
    ((n / 4096 % 16 * 16 + n / 256 % 16) * 16 + n / 16 % 16) * 16 + n % 16 = n := by
  omega

theorem char_eq_of_toNat (c : Char) (n : Nat) (h : c.toNat = n) : c = Char.ofNat n := by
  rw [← h, Char.ofNat_toNat]

theorem readHex4_toHex4 (n : Nat) (h : n < 0x10000) (rest : List Char) :
    readHex4 (toHex4 n ++ rest) = some (n, rest) := by
  unfold toHex4
  simp only [List.cons_append, List.nil_append]
  unfold readHex4
  try simp only
  rw [hexVal_hexDigitChar _ (by omega), hexVal_hexDigitChar _ (by omega),
    hexVal_hexDigitChar _ (by omega), hexVal_hexDigitChar _ (by omega)]
  simp only
  rw [hex4_reassemble n h]

theorem parseUEscape_bmp (n : Nat) (h : n < 0x10000) (hs : ¬ (0xD800 ≤ n ∧ n < 0xE000))
    (rest : List Char) :
    parseUEscape (toHex4 n ++ rest) = some (Char.ofNat n, rest) := by
  unfold parseUEscape
  rw [readHex4_toHex4 n h, Option.some_bind]
  simp only
  rw [if_neg (by omega), if_neg (by omega)]

theorem readBackslashU_cons (rest : List Char) :
    readBackslashU ('\\' :: 'u' :: rest) = some rest := by
  unfold readBackslashU
  simp

theorem parseUEscape_pair (hi lo : Nat) (hhi : 0xD800 ≤ hi ∧ hi < 0xDC00)
    (hlo : 0xDC00 ≤ lo ∧ lo < 0xE000) (rest : List Char) :
    parseUEscape (toHex4 hi ++ '\\' :: 'u' :: (toHex4 lo ++ rest)) =
      some (Char.ofNat (0x10000 + (hi - 0xD800) * 1024 + (lo - 0xDC00)), rest) := by
  unfold parseUEscape
  rw [readHex4_toHex4 hi (by omega), Option.some_bind]
  simp only
  rw [if_pos hhi, readBackslashU_cons, Option.some_bind,
    readHex4_toHex4 lo (by omega), Option.some_bind]
  simp only
  rw [if_pos hlo]

theorem parseStringStep_backslash (e : Char) (rest1 : List Char) :
    parseStringStep ('\\' :: e :: rest1) =
      if e = 'u' then (parseUEscape rest1).map (fun p => (some p.1, p.2))
      else
        match escCharVal e with
        | some ec => some (some ec, rest1)
        | none => none := by
  unfold parseStringStep
  simp only
  try simp only [if_true]
  try rw [if_neg (by decide : ¬ ('\\':Char) = '"')]
  try rw [if_pos (rfl : ('\\':Char) = '\\')]

theorem parseStringStep_plain (c : Char) (rest : List Char) (h1 : ¬ c = '"')
    (h2 : ¬ c = '\\') (h3 : ¬ c.toNat < 0x20) :
    parseStringStep (c :: rest) = some (some c, rest) := by
  unfold parseStringStep
  simp only
  rw [if_neg h1, if_neg h2, if_neg h3]

theorem parseStringStep_escape (c : Char) (tail : List Char) :
    parseStringStep (escapeChar c ++ tail) = some (some c, tail) := by
  have hv := char_toNat_valid c
  unfold escapeChar
  by_cases h1 : c = '"'
  · rw [if_pos h1]
    subst h1
    rw [List.cons_append, List.cons_append, List.nil_append, parseStringStep_backslash]
    simp [escCharVal]
  · rw [if_neg h1]
    by_cases h2 : c = '\\'
    · rw [if_pos h2]
      subst h2
      rw [List.cons_append, List.cons_append, List.nil_append, parseStringStep_backslash]
      simp [escCharVal]
    · rw [if_neg h2]
      by_cases h3 : c = '\n'
      · rw [if_pos h3]
        subst h3
        rw [List.cons_append, List.cons_append, List.nil_append, parseStringStep_backslash]
        simp [escCharVal]
      · rw [if_neg h3]
        by_cases h4 : c = '\r'
        · rw [if_pos h4]
          subst h4
          rw [List.cons_append, List.cons_append, List.nil_append, parseStringStep_backslash]
          simp [escCharVal]
        · rw [if_neg h4]
          by_cases h5 : c = '\t'
          · rw [if_pos h5]
            subst h5
            rw [List.cons_append, List.cons_append, List.nil_append, parseStringStep_backslash]
            simp [escCharVal]
          · rw [if_neg h5]
            by_cases h6 : c.toNat = 8
            · rw [if_pos h6, char_eq_of_toNat c 8 h6]
              rw [List.cons_append, List.cons_append, List.nil_append, parseStringStep_backslash]
              simp [escCharVal]
            · rw [if_neg h6]
              by_cases h7 : c.toNat = 12
              · rw [if_pos h7, char_eq_of_toNat c 12 h7]
                rw [List.cons_append, List.cons_append, List.nil_append,
                  parseStringStep_backslash]
                simp [escCharVal]
              · rw [if_neg h7]
                by_cases h8 : 0x20 ≤ c.toNat ∧ c.toNat < 0x7F
                · rw [if_pos h8, List.cons_append, List.nil_append]
                  exact parseStringStep_plain c tail h1 h2 (by omega)
                · rw [if_neg h8]
                  by_cases h9 : c.toNat < 0x10000
                  · rw [if_pos h9, List.cons_append, List.cons_append,
                      parseStringStep_backslash, if_pos (rfl : ('u':Char) = 'u')]
                    rw [parseUEscape_bmp c.toNat h9 (by omega) tail]
                    rw [Option.map_some', Char.ofNat_toNat]
                  · rw [if_neg h9]
                    have hcv : c.toNat < 0x110000 := by omega
                    rw [List.append_assoc, List.cons_append, List.cons_append,
                      List.cons_append, List.cons_append,
                      parseStringStep_backslash, if_pos (rfl : ('u':Char) = 'u')]
                    rw [parseUEscape_pair (0xD800 + (c.toNat - 0x10000) / 1024)
                      (0xDC00 + (c.toNat - 0x10000) % 1024) (by omega) (by omega) tail]
                    have hcomb : 0x10000 +
                        (0xD800 + (c.toNat - 0x10000) / 1024 - 0xD800) * 1024 +
                        (0xDC00 + (c.toNat - 0x10000) % 1024 - 0xDC00) = c.toNat := by omega
                    rw [Option.map_some', hcomb, Char.ofNat_toNat]

theorem readHex4_shrink (cs : List Char) (q : Nat × List Char)
    (h : readHex4 cs = some q) : q.2.length + 4 = cs.length := by
  unfold readHex4 at h
  split at h
  · split at h
    · cases h
      simp
    · cases h
  · cases h

theorem readBackslashU_shrink (cs : List Char) (r : List Char)
    (h : readBackslashU cs = some r) : r.length + 2 = cs.length := by
  unfold readBackslashU at h
  split at h
  · split at h
    · cases h
      simp
    · cases h
  · cases h

set_option maxRecDepth 4000 in
theorem parseUEscape_shrink (cs : List Char) (p : Char × List Char)
    (h : parseUEscape cs = some p) : p.2.length ≤ cs.length := by
  unfold parseUEscape at h
  cases hr4 : readHex4 cs with
  | none => rw [hr4] at h; cases h
  | some q =>
    obtain ⟨n, rest2⟩ := q
    rw [hr4, Option.some_bind] at h
    have hq := readHex4_shrink cs (n, rest2) hr4
    simp only at h hq
    split at h
    · cases hbu : readBackslashU rest2 with
      | none => rw [hbu] at h; cases h
      | some rest2b =>
        rw [hbu, Option.some_bind] at h
        have hb := readBackslashU_shrink rest2 rest2b hbu
        cases hr42 : readHex4 rest2b with
        | none => rw [hr42] at h; cases h
        | some q2 =>
          obtain ⟨n2, rest3⟩ := q2
          rw [hr42, Option.some_bind] at h
          have hq2 := readHex4_shrink rest2b (n2, rest3) hr42
          simp only at h hq2
          split at h
          · rw [Option.some.injEq] at h
            subst h
            simp only
            omega
          · cases h
    · split at h
      · cases h
      · rw [Option.some.injEq] at h
        subst h
        simp only
        omega

theorem parseStringStep_shrink (cs : List Char) (r : Option Char × List Char)
    (h : parseStringStep cs = some r) : r.2.length < cs.length := by
  unfold parseStringStep at h
  cases cs with
  | nil => cases h
  | cons c rest =>
    simp only at h
    split at h
    · cases h
      simp
    · split at h
      · split at h
        · cases h
        · split at h
          · cases hu : parseUEscape _ with
            | none =>
              rw [hu] at h
              cases h
            | some p =>
              rw [hu] at h
              cases h
              have hp := parseUEscape_shrink _ p hu
              simp only [List.length_cons]
              omega
          · split at h
            · cases h
              simp only [List.length_cons]
              omega
            · cases h
      · split at h
        · cases h
        · cases h
          simp

theorem parseStringGo_fuel (f : Nat) :
    ∀ g cs, cs.length < f → cs.length < g → parseStringGo f cs = parseStringGo g cs := by
  induction f with
  | zero =>
    intro g cs hf _
    omega
  | succ f ih =>
    intro g cs hf hg
    obtain ⟨g2, rfl⟩ : ∃ g2, g = g2 + 1 := ⟨g - 1, by omega⟩
    simp only [parseStringGo]
    cases hstep : parseStringStep cs with
    | none => rfl
    | some r =>
      cases r with
      | mk oc rest =>
        have hlen := parseStringStep_shrink cs (oc, rest) hstep
        cases oc with
        | none => rfl
        | some ch =>
          simp only
          rw [ih g2 rest (by simp at hlen; omega) (by simp at hlen; omega)]

theorem escapeChar_length_pos (c : Char) : 0 < (escapeChar c).length := by
  by_contra h
  have hnil : escapeChar c = [] := by
    cases hE : escapeChar c with
    | nil => rfl
    | cons a t => rw [hE] at h; simp at h
  have h2 := parseStringStep_escape c []
  rw [hnil, List.nil_append] at h2
  rw [show parseStringStep [] = none from rfl] at h2
  cases h2

theorem parseStringGo_escape (s : List Char) :
    ∀ f rest, ((s.map escapeChar).flatten).length + 1 ≤ f →
      parseStringGo f ((s.map escapeChar).flatten ++ '"' :: rest) = some (s, rest) := by
  induction s with
  | nil =>
    intro f rest hf
    obtain ⟨f2, rfl⟩ : ∃ f2, f = f2 + 1 := ⟨f - 1, by omega⟩
    simp only [List.map_nil, List.flatten_nil, List.nil_append, parseStringGo]
    rw [show parseStringStep ('"' :: rest) = some (none, rest) from by
      unfold parseStringStep; simp]
  | cons c cs ih =>
    intro f rest hf
    simp only [List.map_cons, List.flatten_cons, List.length_append] at hf
    obtain ⟨f2, rfl⟩ : ∃ f2, f = f2 + 1 := ⟨f - 1, by omega⟩
    simp only [List.map_cons, List.flatten_cons, List.append_assoc, parseStringGo]
    rw [parseStringStep_escape c _]
    simp only
    rw [ih f2 rest (by have := escapeChar_length_pos c; omega)]
    rfl

/-- The JSON string scanner undoes the ensure_ascii escaper: scanning the
escaped text followed by a closing quote returns the original characters. -/
theorem parseStringBody_escape (s : List Char) (rest : List Char) :
    parseStringBody ((s.map escapeChar).flatten ++ '"' :: rest) = some (s, rest) := by
  unfold parseStringBody
  exact parseStringGo_escape s _ rest (by simp)


/-! ## The json.loads trace over the serializer output -/

theorem skipWs_cons_false (c : Char) (l : List Char) (h : jsonWs c = false) :
    skipWs (c :: l) = c :: l := by
  unfold skipWs
  rw [List.dropWhile_cons, h]
  rfl

theorem skipWs_cons_true (c : Char) (l : List Char) (h : jsonWs c = true) :
    skipWs (c :: l) = skipWs l := by
  unfold skipWs
  rw [List.dropWhile_cons, h]
  rfl

theorem parseValue_string (f : Nat) (s : String) (rest : List Char) :
    parseValue (Nat.succ f) ('"' :: ((s.data.map escapeChar).flatten ++ '"' :: rest)) =
      some (JVal.jstr s, rest) := by
  unfold parseValue
  rw [skipWs_cons_false _ _ (by decide)]
  simp only
  rw [if_pos trivial]
  rw [parseStringBody_escape]
  rfl

theorem parseValue_ws (f : Nat) (c : Char) (cs : List Char) (h : jsonWs c = true) :
    parseValue (Nat.succ f) (c :: cs) = parseValue (Nat.succ f) cs := by
  unfold parseValue
  rw [skipWs_cons_true _ _ h]

theorem parseMembers_last (f : Nat) (k v : String) (rest' : List Char) :
    parseMembers (Nat.succ (Nat.succ f))
      ('"' :: ((k.data.map escapeChar).flatten ++ '"' :: ':' :: ' ' ::
        '"' :: ((v.data.map escapeChar).flatten ++ '"' :: rbrace :: rest')))
      = some ([(k, JVal.jstr v)], rest') := by
  unfold parseMembers
  simp only
  rw [if_pos trivial]
  rw [parseStringBody_escape]
  simp only
  rw [skipWs_cons_false _ _ (by decide)]
  simp only
  rw [if_pos trivial]
  rw [parseValue_ws _ _ _ (by decide), parseValue_string]
  simp only
  rw [skipWs_cons_false _ _ (by decide)]
  simp only
  rw [if_neg (by decide : ¬ rbrace = ','), if_pos trivial]

theorem parseMembers_two (f : Nat) (k1 v1 k2 v2 : String) (rest' : List Char) :
    parseMembers (Nat.succ (Nat.succ (Nat.succ f)))
      ('"' :: ((k1.data.map escapeChar).flatten ++ '"' :: ':' :: ' ' ::
        '"' :: ((v1.data.map escapeChar).flatten ++ '"' :: ',' :: ' ' ::
        '"' :: ((k2.data.map escapeChar).flatten ++ '"' :: ':' :: ' ' ::
        '"' :: ((v2.data.map escapeChar).flatten ++ '"' :: rbrace :: rest')))))
      = some ([(k1, JVal.jstr v1), (k2, JVal.jstr v2)], rest') := by
  unfold parseMembers
  simp only
  rw [if_pos trivial]
  rw [parseStringBody_escape]
  simp only
  rw [skipWs_cons_false _ _ (by decide)]
  simp only
  rw [if_pos trivial]
  rw [parseValue_ws _ _ _ (by decide), parseValue_string]
  simp only
  rw [skipWs_cons_false _ _ (by decide)]
  simp only
  rw [if_pos trivial]
  rw [skipWs_cons_true _ _ (by decide), skipWs_cons_false _ _ (by decide)]
  rw [parseMembers_last]
  rfl

theorem parseValue_dumps (f : Nat) (r : CachedResult) :
    parseValue (Nat.succ (Nat.succ (Nat.succ (Nat.succ f)))) (jsonDumpsCached r) =
      some (JVal.jobj [("title", JVal.jstr r.title), ("summary", JVal.jstr r.summary)], []) := by
  have hd : jsonDumpsCached r =
      lbrace :: '"' :: (("title".data.map escapeChar).flatten ++ '"' :: ':' :: ' ' ::
        '"' :: ((r.title.data.map escapeChar).flatten ++ '"' :: ',' :: ' ' ::
        '"' :: (("summary".data.map escapeChar).flatten ++ '"' :: ':' :: ' ' ::
        '"' :: ((r.summary.data.map escapeChar).flatten ++ '"' :: rbrace :: [])))) := by
    simp [jsonDumpsCached, encodeJsonString, List.append_assoc]
  rw [hd]
  unfold parseValue
  rw [skipWs_cons_false _ _ (by decide)]
  simp only
  try rw [if_neg (by decide : ¬ lbrace = '"')]
  try rw [if_pos trivial]
  rw [skipWs_cons_false _ _ (by decide)]
  simp only
  try rw [if_neg (by decide : ¬ ('"':Char) = rbrace)]
  rw [parseMembers_two]
  rfl

theorem jsonDumpsCached_length (r : CachedResult) : 3 ≤ (jsonDumpsCached r).length := by
  simp [jsonDumpsCached, encodeJsonString]
  omega

theorem jsonLoads_dumps (r : CachedResult) :
    jsonLoads (jsonDumpsCached r) =
      some (JVal.jobj [("title", JVal.jstr r.title), ("summary", JVal.jstr r.summary)]) := by
  unfold jsonLoads
  have h3 := jsonDumpsCached_length r
  have hg : (jsonDumpsCached r).length + 1 =
      Nat.succ (Nat.succ (Nat.succ (Nat.succ ((jsonDumpsCached r).length - 3)))) := by omega
  rw [hg, parseValue_dumps]
  simp [skipWs]

theorem kwargs_pair (t s : String) :
    kwargsCachedResult (JVal.jobj [("title", JVal.jstr t), ("summary", JVal.jstr s)]) =
      some ⟨t, s⟩ := by
  rfl

theorem Store.lookup_upload (s : Store) (n : String) (d : List Nat) :
    (s.upload n d).lookup n = some d := by
  simp [Store.lookup, Store.upload, List.find?]

theorem deserialize_dumps (decompress : List Nat → Option (List Nat))
    (t sm : String) (data : List Nat)
    (h : decompress data = some (utf8Encode (jsonDumpsCached ⟨t, sm⟩))) :
    deserializeResult decompress data = some ⟨t, sm⟩ := by
  unfold deserializeResult
  rw [h]
  simp only
  rw [utf8Decode_utf8Encode]
  simp only
  rw [jsonLoads_dumps]
  simp only
  exact kwargs_pair t sm

theorem store_get_roundtrip (compress : List Nat → List Nat)
    (decompress : List Nat → Option (List Nat))
    (hround : ∀ bs, decompress (compress bs) = some bs)
    (s : Store) (u t sm : String) :
    get_cached_result decompress (store_result compress s u t sm) u = some ⟨t, sm⟩ := by
  unfold get_cached_result store_result
  rw [Store.lookup_upload]
  simp only
  exact deserialize_dumps decompress t sm _ (hround _)

theorem get_cached_result_corrupt (decompress : List Nat → Option (List Nat))
    (s : Store) (u : String) (data : List Nat)
    (hex : s.lookup (get_blob_name u) = some data)
    (hbad : deserializeResult decompress data = none) :
    get_cached_result decompress s u = none := by
  unfold get_cached_result
  rw [hex]
  simp only
  exact hbad


/-! # The claims -/

/-- C1: for valid HTTPS URLs the codec round-trips exactly
(decode_url_safe (encode_url_safe u) = some u), and encode_url_safe is
injective over valid URLs. -/
theorem claim_C1 (u v : String) (hu : is_valid_https_url u = true)
    (hv : is_valid_https_url v = true) :
    decode_url_safe (encode_url_safe u) = some u ∧
    (encode_url_safe u = encode_url_safe v → u = v) := by
  refine ⟨decode_encode_url_safe u, fun he => ?_⟩
  have h1 := decode_encode_url_safe u
  have h2 := decode_encode_url_safe v
  rw [he, h2] at h1
  exact (Option.some.inj h1).symm

theorem claim_C1_witness :
    decode_url_safe (encode_url_safe "https://example.com") = some "https://example.com" :=
  (claim_C1 "https://example.com" "https://example.com" (by decide) (by decide)).1

/-- C2 (amended): one qualifying-looking entry whose key fails to decode
does not merely drop that entry: the ValueError aborts the scan and
get_recent_summaries returns the empty list, losing every other entry. -/
theorem claim_C2 (K : Nat) (l1 l2 : List Blob) (bad : Blob) (nm : String) (ef : Bool)
    (hn : bad.name = some nm) (hgz : pyEndsWith nm ".gz" = true)
    (ht : bad.time_created.isSome = true) (hdec : url_from_blob_name nm = none) :
    get_recent_summaries K (l1 ++ bad :: l2) ef = [] := by
  unfold get_recent_summaries
  rw [scanBlobs_append_bad K l1 l2 bad nm hn hgz ht hdec []]

theorem claim_C2_witness :
    get_recent_summaries 10 [demoBlob "https://a0.com" 100, badBlob] false = [] :=
  claim_C2 10 [demoBlob "https://a0.com" 100] [] badBlob "_w==.gz" false rfl (by decide)
    rfl (by decide)

/-- C2 counterexample to the original claim: with the undecodable key
present the good entry disappears from the result, although on its own it
is returned. -/
theorem claim_C2_counterexample :
    get_recent_summaries 10 [demoBlob "https://a0.com" 100, badBlob] false = [] ∧
    get_recent_summaries 10 [demoBlob "https://a0.com" 100] false =
      [("https://a0.com", formatTimestamp 100)] := by
  constructor
  · decide
  · decide

/-- C3 (amended): a present-but-corrupt payload makes get_cached_result
return none, the very value it returns on a clean miss: corruption is folded
into "absent", not distinguishable from it. -/
theorem claim_C3 (decompress : List Nat → Option (List Nat)) (s : Store)
    (u : String) (data : List Nat)
    (hex : s.lookup (get_blob_name u) = some data)
    (hbad : deserializeResult decompress data = none) :
    get_cached_result decompress s u = none ∧
    get_cached_result decompress emptyStore u = none := by
  constructor
  · unfold get_cached_result
    rw [hex]
    simp only
    exact hbad
  · rfl

theorem claim_C3_witness :
    get_cached_result idDecompress corruptStore "https://example.com" = none ∧
    get_cached_result idDecompress emptyStore "https://example.com" = none :=
  claim_C3 idDecompress corruptStore "https://example.com"
    (utf8Encode "notjson".data) (by decide) (by decide)

/-- C3 counterexample to the original claim: the corrupt-payload outcome
equals the never-cached outcome (both none), though the object exists. -/
theorem claim_C3_counterexample :
    corruptStore.lookup (get_blob_name "https://example.com") =
      some (utf8Encode "notjson".data) ∧
    get_cached_result idDecompress corruptStore "https://example.com" = none ∧
    get_cached_result idDecompress emptyStore "https://example.com" = none := by
  refine ⟨by decide, by decide, rfl⟩

/-- C4 (amended): an http-scheme candidate is not rejected: it does not
start with the literal "https://", so validation prepends "https://",
urlparse then reports scheme https with non-empty netloc "http:", and
get_and_validate_url accepts, returning "https://http://..." . -/
theorem claim_C4 (r : String) :
    get_and_validate_url ("http://" ++ r) = some ("https://http://" ++ r) := by
  unfold get_and_validate_url
  simp only
  rw [pyStartsWith_http_scheme]
  simp only [Bool.false_eq_true, if_false]
  rw [https_prepend_http, is_valid_https_http]
  simp

/-- C4 counterexample to the original claim: the http URL
"http://example.com" is accepted (Some), not rejected (None). -/
theorem claim_C4_counterexample :
    get_and_validate_url "http://example.com" = some "https://http://example.com" := by
  decide

/-- C5: over an all-qualifying listing with pairwise distinct timestamps,
get_recent_summaries max_entries returns exactly the take of the descending
insertion sort of the decoded entries (the newest ones), descending and
duplicate-free (the sort is a permutation of the entries and strictly
descending), and its length is min max_entries n. -/
theorem claim_C5 (K : Nat) (listing : List Blob)
    (hq : ∀ b ∈ listing, qualifiesOk b = true)
    (hne : (listingEntries listing).Pairwise (fun a b => a.timestamp ≠ b.timestamp)) :
    get_recent_summaries K listing false =
      ((insertionSortDesc (listingEntries listing)).take K).map
        (fun e => (e.url, formatTimestamp e.timestamp)) ∧
    (insertionSortDesc (listingEntries listing)).Perm (listingEntries listing) ∧
    (insertionSortDesc (listingEntries listing)).Pairwise
      (fun a b => b.timestamp < a.timestamp) ∧
    (get_recent_summaries K listing false).length = min K listing.length := by
  have he := get_recent_summaries_eq K listing hq hne
  have hperm := insertionSortDesc_perm (listingEntries listing)
  have hsort : (insertionSortDesc (listingEntries listing)).Pairwise
      (fun a b => b.timestamp < a.timestamp) := by
    apply pairwise_gt_of_ge_ne _ (insertionSortDesc_pairwise_ge _)
    exact (hperm.pairwise_iff (fun hab => hab.symm)).mpr hne
  refine ⟨he, hperm, hsort, ?_⟩
  rw [he, List.length_map, List.length_take, hperm.length_eq,
    listingEntries_length listing hq]

theorem claim_C5_witness :
    get_recent_summaries 3 demoListing10 false =
      ((insertionSortDesc (listingEntries demoListing10)).take 3).map
        (fun e => (e.url, formatTimestamp e.timestamp)) ∧
    (get_recent_summaries 100 demoListing5 false).length = min 100 demoListing5.length :=
  ⟨(claim_C5 3 demoListing10 (by decide) (by decide)).1,
   (claim_C5 100 demoListing5 (by decide) (by decide)).2.2.2⟩

/-- C6: storing an artifact under a valid URL and reading it back returns
title and summary exactly, for any compressor/decompressor pair that
round-trips (gzip's contract). -/
theorem claim_C6 (compress : List Nat → List Nat)
    (decompress : List Nat → Option (List Nat))
    (hround : ∀ bs, decompress (compress bs) = some bs)
    (s : Store) (u t sm : String) (hu : is_valid_https_url u = true) :
    get_cached_result decompress (store_result compress s u t sm) u = some ⟨t, sm⟩ :=
  store_get_roundtrip compress decompress hround s u t sm

theorem claim_C6_witness :
    get_cached_result idDecompress
      (store_result idCompress emptyStore "https://example.com" "Title" "A summary.")
      "https://example.com" = some ⟨"Title", "A summary."⟩ :=
  claim_C6 idCompress idDecompress (fun bs => rfl) emptyStore
    "https://example.com" "Title" "A summary." (by decide)

/-- C7: at every point of the scan (after any prefix of the listing) the
heap holds at most max_entries elements. -/
theorem claim_C7 (K : Nat) (l1 l2 : List Blob) (heap : List SummaryEntry)
    (h : scanBlobs K [] l1 = some heap) :
    heap.length ≤ K :=
  scanBlobs_length_le K l1 [] heap (by simp) h

theorem claim_C7_witness :
    ([⟨"https://b0.com", 14⟩, ⟨"https://b2.com", 15⟩] : List SummaryEntry).length ≤ 2 :=
  claim_C7 2 demoListing5 [] _ (by decide)

/-- C8: if the enumeration raises mid-scan, get_recent_summaries fails
closed and returns the empty list, whatever was yielded before. -/
theorem claim_C8 (K : Nat) (listing : List Blob) :
    get_recent_summaries K listing true = [] := by
  unfold get_recent_summaries
  cases h : scanBlobs K [] listing with
  | none => rfl
  | some heap => simp

/-- C9: get_and_validate_url is idempotent: a returned URL re-validates to
itself. -/
theorem claim_C9 (s u : String) (h : get_and_validate_url s = some u) :
    get_and_validate_url u = some u := by
  obtain ⟨h1, h2⟩ := get_and_validate_url_some s u h
  unfold get_and_validate_url
  simp only
  rw [h1]
  simp only [if_true]
  rw [h2]
  simp

theorem claim_C9_witness :
    get_and_validate_url "https://example.com" = some "https://example.com" :=
  claim_C9 "example.com" "https://example.com" (by decide)

/-- C10: the decoder is padding-insensitive on encoder output: stripping
every trailing '=' before decoding yields the same result, namely the
original URL, because the padding is recomputed from the length mod 4. -/
theorem claim_C10 (u : String) (hu : is_valid_https_url u = true) :
    decode_url_safe (stripPadding (encode_url_safe u)) = some u ∧
    decode_url_safe (stripPadding (encode_url_safe u)) =
      decode_url_safe (encode_url_safe u) := by
  refine ⟨decode_strip_encode u, ?_⟩
  rw [decode_strip_encode u, decode_encode_url_safe u]

theorem claim_C10_witness :
    decode_url_safe (stripPadding (encode_url_safe "https://example.com")) =
      some "https://example.com" :=
  (claim_C10 "https://example.com" (by decide)).1

end SummarizeApp
